import Mathlib

/-!
Verification of the halo2wrong ECC gadget library (windowed scalar
multiplication, auxiliary-point subsystem, point primitives).

The development shallowly embeds the value-level semantics of the circuit
code.  Points of the emulated curve are modelled as elements of an abstract
additive commutative group `G`; the incomplete add/double/ladder formulas
(whose bodies live outside the provided sources) are modelled from the
specification by their value semantics on their defined domain.  Fallible
Rust code returning `Result<_, Error>` is embedded into `Except EccError`;
a Rust `panic!`, a failed `assert!` or an out-of-bounds `Vec` index is the
distinguished error `EccError.panicked`, while a returned `Error::Synthesis`
is `EccError.synthesis`.
-/

namespace Halo2Ecc

/-- Outcomes of fallible circuit-construction steps: `synthesis` models a
returned `Error::Synthesis`, while `panicked` models a Rust panic (failed
assertion, `unwrap` of a missing value, out-of-bounds index). -/
inductive EccError : Type
  | synthesis : EccError
  | panicked : EccError
  deriving DecidableEq, Repr

/-- Result type of circuit-construction steps. -/
abbrev Res (α : Type) : Type := Except EccError α

instance {α : Type} [DecidableEq α] : DecidableEq (Res α) := fun a b =>
  match a, b with
  | Except.ok x, Except.ok y =>
      if h : x = y then isTrue (by rw [h])
      else isFalse (fun hh => h (by injection hh))
  | Except.error x, Except.error y =>
      if h : x = y then isTrue (by rw [h])
      else isFalse (fun hh => h (by injection hh))
  | Except.ok _, Except.error _ => isFalse (fun h => Except.noConfusion h)
  | Except.error _, Except.ok _ => isFalse (fun h => Except.noConfusion h)

/-- Embeds a Rust `assert!`: a false condition panics. -/
def assertB (p : Prop) [Decidable p] : Res Unit :=
  if p then Except.ok () else Except.error EccError.panicked

/-- Embeds Rust `Vec` indexing `v[i]`: out of bounds panics. -/
def listGet {α : Type} (l : List α) (i : ℕ) : Res α :=
  match l.get? i with
  | some a => Except.ok a
  | none => Except.error EccError.panicked

/-- Modelled from the spec: §4.4 step 1, the scalar-field chip `decompose`
(its body is outside the provided sources) returns the full-length
boolean bit representation of the scalar, least-significant bit first,
of length `numBits` (the bit-length of the scalar field). -/
def decompose : ℕ → ℕ → List Bool
  | _, 0 => []
  | s, n + 1 => (s % 2 == 1) :: decompose (s / 2) n

variable {G : Type} [AddCommGroup G]

/-- Modelled from the spec: §4.2/§8, the value computed by the incomplete
addition formula `_add_incomplete_unsafe` is the off-circuit group sum
(on its defined domain); the constraint-emission side is modelled
separately in the coordinate layer below. -/
def add (p0 p1 : G) : G := p0 + p1

/-- Modelled from the spec: §4.2, `double` applies the tangent-doubling
formula, whose value is `P + P`. -/
def double (p : G) : G := p + p

/-- Embeds `double_n` (base_field_ecc.rs): apply `double` `logn` times. -/
def double_n (p : G) : ℕ → G
  | 0 => p
  | n + 1 => double (double_n p n)

/-- Modelled from the spec: §4.2, `ladder(P, Q)` computes `2·P + Q`. -/
def ladder (to_double to_add : G) : G := to_double + to_double + to_add

/-- Embeds `pad` (mul.rs lines 12-29): asserts the decomposition has the
scalar field's bit length, appends zero bits until the length is a
multiple of the window size, and reverses (so the result is
most-significant bit first).  A zero window size panics in Rust on
`bits.len() % window_size`. -/
def pad (bits : List Bool) (window_size numBits : ℕ) : Res (List Bool) := do
  _ ← assertB (bits.length = numBits)
  if window_size = 0 then
    Except.error EccError.panicked
  else
    let padding_offset := (window_size - bits.length % window_size) % window_size
    pure ((bits ++ List.replicate padding_offset false).reverse)

/-- Embeds `window` (mul.rs lines 31-45): asserts divisibility, splits the
(most-significant-first) padded bits into `number_of_windows` chunks of
`window_size` bits and reverses each chunk, so each selector lists its
window's bits least-significant first. -/
def window (bits : List Bool) (window_size : ℕ) : Res (List (List Bool)) :=
  if window_size = 0 then Except.error EccError.panicked
  else do
    _ ← assertB (bits.length % window_size = 0)
    let number_of_windows := bits.length / window_size
    pure ((List.range number_of_windows).map fun i =>
      ((bits.drop (i * window_size)).take window_size).reverse)

/-- Embeds `make_incremental_table` (mul.rs lines 47-60): starts from the
auxiliary point and pushes `2 ^ window_size - 1` further entries, each the
previous entry plus the point. -/
def make_incremental_table (aux point : G) (window_size : ℕ) : List G :=
  (List.range (2 ^ window_size - 1)).foldl
    (fun table i => table ++ [add (table.getD i 0) point]) [aux]

/-- One selection round of `select_multi` (mul.rs lines 73-79): the new
entry `j` is `select(bit, old[2j+1], old[2j])`, where `select` returns its
first point operand when the condition bit is set (the in-place writes of
the Rust loop never clobber a later read, so the rounds are functional). -/
def muxRound (b : Bool) : List G → List G
  | x :: y :: rest => (if b then y else x) :: muxRound b rest
  | _ => []

/-- Embeds `select_multi` (mul.rs lines 62-81): asserts the table has
`2 ^ selector.len()` points, then repeatedly halves the candidate list,
one round per selector bit in selector order, and returns the remaining
front entry. -/
def select_multi (selector : List Bool) (table : List G) : Res G := do
  _ ← assertB (table.length = 2 ^ selector.length)
  match selector.foldl (fun reducer b => muxRound b reducer) table with
  | r :: _ => pure r
  | [] => Except.error EccError.panicked

/-- Number of bits after padding to a multiple of the window size. -/
def paddedLen (numBits window_size : ℕ) : ℕ :=
  numBits + (window_size - numBits % window_size) % window_size

/-- Number of windows the padded scalar decomposition is split into. -/
def numWindows (numBits window_size : ℕ) : ℕ :=
  paddedLen numBits window_size / window_size

/-- The power-of-two factor that the multiplication schedule accumulates on
the injected auxiliary offset for one pair:
`auxCoeff w m = 2^(w*(m-1)) + ... + 2^w + 1` for `m` windows. -/
def auxCoeff (window_size : ℕ) : ℕ → ℕ
  | 0 => 0
  | m + 1 => 2 ^ (window_size * m) + auxCoeff window_size m

/-- Modelled from the spec: §4.3, `make_mul_aux` (its body is outside the
provided sources) deterministically derives, off-circuit, the point that
exactly cancels the aggregate auxiliary contribution accumulated by the
`(window_size, number_of_pairs)` schedule: the generator scaled by the
accumulated factor, negated so that the final addition removes the offset. -/
def make_mul_aux (point : G) (window_size number_of_pairs numBits : ℕ) : G :=
  -((((2 ^ number_of_pairs) - 1) * auxCoeff window_size (numWindows numBits window_size)) • point)

/-- Embeds `MulAux` (to_add: the assigned aux generator, to_sub: the
registry entry). -/
structure MulAux (G : Type) : Type where
  to_add : G
  to_sub : G

/-- Embeds the chip state of `BaseFieldEccChip` (base_field_ecc.rs lines
18-27): the optional auxiliary generator and the `(window_size, n_pairs)`
keyed registry (a `BTreeMap`, embedded as an association list with
insert-replace).  We model the proving-time path where assigned points
carry their witness value, so the stored `Option<C>` plaintext and the
assigned point collapse to one value of `G`. -/
structure ChipState (G : Type) : Type where
  aux_generator : Option G
  aux_registry : List ((ℕ × ℕ) × G)

/-- Lookup in the auxiliary registry. -/
def regLookup {G : Type} (k : ℕ × ℕ) : List ((ℕ × ℕ) × G) → Option G
  | [] => none
  | (k', v) :: rest => if k' = k then some v else regLookup k rest

/-- `BTreeMap::insert`: replaces the value under an existing key, otherwise
appends the new entry. -/
def regInsert {G : Type} (k : ℕ × ℕ) (v : G) : List ((ℕ × ℕ) × G) → List ((ℕ × ℕ) × G)
  | [] => [(k, v)]
  | (k', v') :: rest => if k' = k then (k, v) :: rest else (k', v') :: regInsert k v rest

/-- Embeds `get_mul_aux` (base_field_ecc.rs lines 81-97): returns
`Error::Synthesis` if the aux generator is missing or the registry has no
entry under `(window_size, number_of_pairs)`, else the `MulAux` pair. -/
def get_mul_aux {G : Type} (st : ChipState G) (window_size number_of_pairs : ℕ) :
    Res (MulAux G) := do
  let to_add ← match st.aux_generator with
    | some assigned => Except.ok assigned
    | none => Except.error EccError.synthesis
  let to_sub ← match regLookup (window_size, number_of_pairs) st.aux_registry with
    | some aux => Except.ok aux
    | none => Except.error EccError.synthesis
  pure (MulAux.mk to_add to_sub)

/-- Embeds the `&self` receiver of `get_mul_aux`: the call returns its
result together with the (unmodified) chip state. -/
def get_mul_aux_call {G : Type} (st : ChipState G) (window_size number_of_pairs : ℕ) :
    Res (MulAux G × ChipState G) :=
  (get_mul_aux st window_size number_of_pairs).map (fun a => (a, st))

/-- Embeds `assign_aux_generator` (base_field_ecc.rs lines 160-168) on the
known-witness path: stores the assigned generator. -/
def assign_aux_generator {G : Type} (st : ChipState G) (point : G) : ChipState G :=
  { aux_generator := some point, aux_registry := st.aux_registry }

/-- Embeds `assign_aux` (base_field_ecc.rs lines 171-191): with an assigned
generator, derives `make_mul_aux` off-circuit and inserts it into the
registry under `(window_size, number_of_pairs)`; without one, returns
`Error::Synthesis`. -/
def assign_aux (numBits : ℕ) (st : ChipState G) (window_size number_of_pairs : ℕ) :
    Res (ChipState G) :=
  match st.aux_generator with
  | some point =>
      Except.ok { aux_generator := st.aux_generator,
                  aux_registry := regInsert (window_size, number_of_pairs)
                    (make_mul_aux point window_size number_of_pairs numBits) st.aux_registry }
  | none => Except.error EccError.synthesis

/-- The body of the remaining-window loop of `mul` (mul.rs lines 107-111):
`acc = double_n(acc, window_size - 1)`, then `acc = ladder(acc,
select_multi(selector, table))`. -/
def mulLoopStep (table : List G) (window_size : ℕ) (acc : G) (sel : List Bool) : Res G := do
  let accD := double_n acc (window_size - 1)
  let t ← select_multi sel table
  pure (ladder accD t)

/-- Embeds `mul` (mul.rs lines 85-114): asserts a positive window size,
fetches the auxiliary pair for `(window_size, 1)`, decomposes, pads and
windows the scalar, builds the incremental table, then runs the
select/double/ladder accumulation schedule and adds `to_sub`. -/
def mul (st : ChipState G) (point : G) (scalar window_size numBits : ℕ) : Res G := do
  _ ← assertB (0 < window_size)
  let aux ← get_mul_aux st window_size 1
  let decomposed := decompose scalar numBits
  let padded ← pad decomposed window_size numBits
  let windowed ← window padded window_size
  let table := make_incremental_table aux.to_add point window_size
  let sel0 ← listGet windowed 0
  let acc0 ← select_multi sel0 table
  let acc1 := double_n acc0 window_size
  let sel1 ← listGet windowed 1
  let t1 ← select_multi sel1 table
  let acc2 := add acc1 t1
  let accF ← (windowed.drop 2).foldlM (mulLoopStep table window_size) acc2
  pure (add accF aux.to_sub)

/-- Embeds the per-pair table construction of `mul_batch_1d_horizontal`
(mul.rs lines 148-159): pair `i`'s table uses the running `binary_aux`,
which is doubled before moving to the next pair (the last pair's aux is
not further doubled). -/
def buildTables (window_size : ℕ) (binary_aux : G) : List G → List (List G)
  | [] => []
  | [p] => [make_incremental_table binary_aux p window_size]
  | p :: rest =>
      make_incremental_table binary_aux p window_size ::
        buildTables window_size (double binary_aux) rest

/-- One pair's contribution inside a window round of
`mul_batch_1d_horizontal` (mul.rs lines 165-169 and 173-177): select the
pair's entry for window `i` from its table and add it to the shared
accumulator. -/
def batchAddStep (i : ℕ) (acc : G) (tw : List G × List (List Bool)) : Res G := do
  let sel ← listGet tw.2 i
  let to_add ← select_multi sel tw.1
  pure (add acc to_add)

/-- The body of the per-window loop of `mul_batch_1d_horizontal` (mul.rs
lines 171-178): double the shared accumulator `window_size` times, then
add every pair's selection for window `i`. -/
def batchWindowStep (tz : List (List G × List (List Bool))) (window_size : ℕ)
    (acc : G) (i : ℕ) : Res G := do
  let accD := double_n acc window_size
  tz.foldlM (batchAddStep i) accD

/-- Embeds `mul_batch_1d_horizontal` (mul.rs lines 116-181): asserts a
positive window size and a nonempty pair list, fetches the auxiliary pair
for `(window_size, pairs.len())`, decomposes/pads/windows every scalar,
builds one incremental table per pair from the doubling `binary_aux`
chain, then shares one accumulator and one doubling schedule across all
pairs and finally adds `to_sub`. -/
def mul_batch_1d_horizontal (st : ChipState G) (pairs : List (G × ℕ))
    (window_size numBits : ℕ) : Res G := do
  _ ← assertB (0 < window_size)
  _ ← assertB (0 < pairs.length)
  let aux ← get_mul_aux st window_size pairs.length
  let decomposed := pairs.map (fun pr => decompose pr.2 numBits)
  let padded ← decomposed.mapM (fun d => pad d window_size numBits)
  let windowed ← padded.mapM (fun bs => window bs window_size)
  let ws0 ← listGet windowed 0
  let number_of_windows := ws0.length
  let tables := buildTables window_size aux.to_add (pairs.map (fun pr => pr.1))
  let t0 ← listGet tables 0
  let sel00 ← listGet ws0 0
  let accInit ← select_multi sel00 t0
  let acc1 ← ((tables.drop 1).zip (windowed.drop 1)).foldlM (batchAddStep 0) accInit
  let accF ← ((List.range number_of_windows).drop 1).foldlM
    (batchWindowStep (tables.zip windowed) window_size) acc1
  pure (add accF aux.to_sub)

/-! ### Bit values -/

/-- Value of a bit list read least-significant bit first. -/
def lsbVal (l : List Bool) : ℕ := l.foldr (fun b a => 2 * a + (cond b 1 0)) 0

/-- Value of a bit list read most-significant bit first, folded onto an
initial accumulator. -/
def natMSBFrom (a : ℕ) (l : List Bool) : ℕ := l.foldl (fun x b => 2 * x + (cond b 1 0)) a

/-- Value of a bit list read most-significant bit first. -/
def natMSB (l : List Bool) : ℕ := natMSBFrom 0 l

theorem lsbVal_cons (b : Bool) (t : List Bool) :
    lsbVal (b :: t) = 2 * lsbVal t + (cond b 1 0) := rfl

theorem natMSB_reverse (l : List Bool) : natMSB l.reverse = lsbVal l := by
  show l.reverse.foldl _ _ = _
  rw [List.foldl_reverse]
  rfl

theorem lsbVal_reverse (l : List Bool) : lsbVal l.reverse = natMSB l := by
  have h := natMSB_reverse l.reverse
  rw [List.reverse_reverse] at h
  exact h.symm

theorem lsbVal_lt (l : List Bool) : lsbVal l < 2 ^ l.length := by
  induction l with
  | nil => simp [lsbVal]
  | cons b t ih =>
      rw [lsbVal_cons]
      have hb : (cond b 1 0) ≤ 1 := by cases b <;> simp
      have : (2:ℕ) ^ (b :: t).length = 2 * 2 ^ t.length := by
        rw [List.length_cons, pow_succ]
        ring
      omega

theorem natMSBFrom_append (a : ℕ) (l1 l2 : List Bool) :
    natMSBFrom a (l1 ++ l2) = natMSBFrom (natMSBFrom a l1) l2 :=
  List.foldl_append _ _ _ _

theorem natMSBFrom_eq (l : List Bool) : ∀ a : ℕ,
    natMSBFrom a l = 2 ^ l.length * a + natMSB l := by
  induction l with
  | nil => intro a; simp [natMSBFrom, natMSB]
  | cons b t ih =>
      intro a
      show natMSBFrom (2 * a + cond b 1 0) t = _
      rw [ih]
      have hmsb : natMSB (b :: t) = 2 ^ t.length * (cond b 1 0) + natMSB t := by
        show natMSBFrom (2 * 0 + cond b 1 0) t = _
        rw [ih]
        ring_nf
      have hlen : (2:ℕ) ^ (b :: t).length = 2 ^ t.length * 2 := by
        rw [List.length_cons, pow_succ]
      rw [hmsb, hlen]
      ring

theorem natMSBFrom_zero_replicate_false (p : ℕ) :
    natMSBFrom 0 (List.replicate p false) = 0 := by
  induction p with
  | zero => rfl
  | succ n ih =>
      show natMSBFrom (2 * 0 + cond false 1 0) (List.replicate n false) = 0
      simpa using ih

theorem decompose_length (numBits : ℕ) : ∀ s, (decompose s numBits).length = numBits := by
  induction numBits with
  | zero => intro s; rfl
  | succ n ih => intro s; simp [decompose, ih]

theorem lsbVal_decompose (numBits : ℕ) : ∀ s, lsbVal (decompose s numBits) = s % 2 ^ numBits := by
  induction numBits with
  | zero => intro s; simp [decompose, lsbVal, Nat.mod_one]
  | succ n ih =>
      intro s
      rw [decompose, lsbVal_cons, ih]
      have hc : (cond (s % 2 == 1) 1 0) = s % 2 := by
        rcases Nat.mod_two_eq_zero_or_one s with h | h <;> rw [h] <;> rfl
      have hm : s % 2 ^ (n + 1) = s % 2 + 2 * (s / 2 % 2 ^ n) := by
        rw [pow_succ']
        exact Nat.mod_mul
      omega

/-! ### Padding and windowing -/

/-- The padded, most-significant-first bit sequence produced by `pad` from
the decomposition of `scalar`. -/
def paddedBits (scalar window_size numBits : ℕ) : List Bool :=
  (decompose scalar numBits ++
    List.replicate ((window_size - numBits % window_size) % window_size) false).reverse

theorem assertB_true {p : Prop} [Decidable p] (h : p) : assertB p = Except.ok () := if_pos h

theorem ok_bind {α β : Type} (a : α) (f : α → Res β) :
    (Except.ok a >>= f : Res β) = f a := rfl

theorem listGet_ok {α : Type} {l : List α} {i : ℕ} {a : α} (h : l.get? i = some a) :
    listGet l i = Except.ok a := by
  rw [listGet, h]

theorem natMSB_paddedBits {s numBits : ℕ} (w : ℕ) (hs : s < 2 ^ numBits) :
    natMSB (paddedBits s w numBits) = s := by
  rw [paddedBits, List.reverse_append, List.reverse_replicate]
  show natMSBFrom 0 _ = s
  rw [natMSBFrom_append, natMSBFrom_zero_replicate_false]
  have h1 : natMSBFrom 0 (decompose s numBits).reverse = lsbVal (decompose s numBits) :=
    natMSB_reverse _
  rw [h1, lsbVal_decompose, Nat.mod_eq_of_lt hs]

theorem pad_ok (s w numBits : ℕ) (hw : w ≠ 0) :
    pad (decompose s numBits) w numBits = Except.ok (paddedBits s w numBits) := by
  rw [pad, assertB_true (decompose_length numBits s), ok_bind]
  rw [if_neg hw]
  rw [decompose_length]
  rfl

theorem paddedBits_length (s w numBits : ℕ) :
    (paddedBits s w numBits).length = paddedLen numBits w := by
  rw [paddedBits, List.length_reverse, List.length_append, decompose_length,
    List.length_replicate, paddedLen]

theorem paddedLen_mod (numBits : ℕ) {w : ℕ} (hw : 0 < w) : paddedLen numBits w % w = 0 := by
  rw [paddedLen]
  rcases Nat.eq_zero_or_pos (numBits % w) with h | h
  · rw [h]
    simp [Nat.mod_self, h]
  · have hlt : numBits % w < w := Nat.mod_lt _ hw
    have h2 : (w - numBits % w) % w = w - numBits % w := Nat.mod_eq_of_lt (by omega)
    rw [h2]
    have h3 := Nat.div_add_mod numBits w
    have h4 : numBits + (w - numBits % w) = w * (numBits / w) + w := by omega
    rw [h4, ← Nat.mul_succ]
    exact Nat.mul_mod_right w _

theorem paddedLen_eq (numBits : ℕ) {w : ℕ} (hw : 0 < w) :
    paddedLen numBits w = numWindows numBits w * w := by
  rw [numWindows, mul_comm]
  have := Nat.div_add_mod (paddedLen numBits w) w
  rw [paddedLen_mod numBits hw] at this
  omega

theorem le_paddedLen (numBits w : ℕ) : numBits ≤ paddedLen numBits w := Nat.le_add_right _ _

theorem two_le_numWindows {numBits w : ℕ} (hw : 0 < w) (h : 2 * w ≤ numBits) :
    2 ≤ numWindows numBits w := by
  rw [numWindows]
  have h1 : 2 * w ≤ paddedLen numBits w := le_trans h (le_paddedLen _ _)
  rw [Nat.le_div_iff_mul_le hw]
  omega

theorem one_le_numWindows {numBits w : ℕ} (hw : 0 < w) (h : 0 < numBits) :
    1 ≤ numWindows numBits w := by
  rw [numWindows, Nat.le_div_iff_mul_le hw, one_mul]
  have h2 := paddedLen_mod numBits hw
  have h3 := le_paddedLen numBits w
  rcases Nat.lt_or_ge (paddedLen numBits w) w with hlt | hge
  · rw [Nat.mod_eq_of_lt hlt] at h2
    omega
  · exact hge

theorem window_ok (bs : List Bool) {w : ℕ} (hw : w ≠ 0) (hmod : bs.length % w = 0) :
    window bs w = Except.ok ((List.range (bs.length / w)).map fun i =>
      ((bs.drop (i * w)).take w).reverse) := by
  rw [window, if_neg hw, assertB_true hmod, ok_bind]
  rfl

/-! ### The multiplexer tree -/

theorem exists_cons_cons_of_length {α : Type} {l : List α} {k : ℕ}
    (hl : l.length = 2 * (k + 1)) : ∃ x y rest, l = x :: y :: rest ∧ rest.length = 2 * k := by
  cases l with
  | nil => simp at hl
  | cons x l1 =>
      cases l1 with
      | nil => simp at hl; omega
      | cons y rest =>
          refine ⟨x, y, rest, rfl, ?_⟩
          simp [List.length_cons] at hl
          omega

theorem muxRound_length (b : Bool) : ∀ (k : ℕ) (l : List G), l.length = 2 * k →
    (muxRound b l).length = k := by
  intro k
  induction k with
  | zero =>
      intro l hl
      rw [List.length_eq_zero] at hl
      rw [hl]
      rfl
  | succ n ih =>
      intro l hl
      obtain ⟨x, y, rest, rfl, hrest⟩ := exists_cons_cons_of_length hl
      show (muxRound b rest).length + 1 = n + 1
      rw [ih rest hrest]

theorem muxRound_get? (b : Bool) : ∀ (k : ℕ) (l : List G), l.length = 2 * k →
    ∀ j : ℕ, j < k →
      (muxRound b l).get? j = l.get? (2 * j + (cond b 1 0)) := by
  intro k
  induction k with
  | zero => intro l hl j hj; omega
  | succ n ih =>
      intro l hl j hj
      obtain ⟨x, y, rest, rfl, hrest⟩ := exists_cons_cons_of_length hl
      match j with
      | 0 => cases b <;> rfl
      | j + 1 =>
          show (muxRound b rest).get? j = _
          rw [ih rest hrest j (by omega)]
          have harith : 2 * (j + 1) + (cond b 1 0) = ((2 * j + (cond b 1 0)) + 1) + 1 := by
            cases b <;> simp <;> omega
          rw [harith]
          rfl

theorem selectFold (sel : List Bool) : ∀ (tab : List G), tab.length = 2 ^ sel.length →
    (sel.foldl (fun reducer b => muxRound b reducer) tab).get? 0 = tab.get? (lsbVal sel) ∧
    (sel.foldl (fun reducer b => muxRound b reducer) tab).length = 1 := by
  induction sel with
  | nil =>
      intro tab htab
      constructor
      · rfl
      · simpa using htab
  | cons b rest ih =>
      intro tab htab
      have hlen : tab.length = 2 * 2 ^ rest.length := by
        rw [htab, List.length_cons, pow_succ]
        ring
      have hlt : lsbVal rest < 2 ^ rest.length := lsbVal_lt rest
      have hmr : (muxRound b tab).length = 2 ^ rest.length := muxRound_length b _ tab hlen
      have hfold : (b :: rest).foldl (fun reducer c => muxRound c reducer) tab =
          rest.foldl (fun reducer c => muxRound c reducer) (muxRound b tab) := rfl
      rw [hfold]
      rcases ih (muxRound b tab) hmr with ⟨hget, hlen1⟩
      refine ⟨?_, hlen1⟩
      rw [hget, muxRound_get? b (2 ^ rest.length) tab hlen _ hlt, lsbVal_cons]

theorem select_multi_ok {sel : List Bool} {tab : List G} {t : G}
    (htab : tab.length = 2 ^ sel.length) (hget : tab.get? (lsbVal sel) = some t) :
    select_multi sel tab = Except.ok t := by
  rcases selectFold sel tab htab with ⟨hget0, hlen1⟩
  obtain ⟨r, rest, hfold⟩ : ∃ r rest,
      sel.foldl (fun reducer b => muxRound b reducer) tab = r :: rest := by
    cases hf : sel.foldl (fun reducer b => muxRound b reducer) tab with
    | nil => rw [hf] at hlen1; simp at hlen1
    | cons r rest => exact ⟨r, rest, rfl⟩
  rw [hfold] at hget0
  rw [hget] at hget0
  have hr : r = t := by
    have : some r = some t := hget0
    injection this
  rw [select_multi, assertB_true htab, ok_bind, hfold, hr]
  rfl

/-! ### The incremental table and the doubling chain -/

theorem make_incremental_table_eq (aux point : G) (w : ℕ) :
    make_incremental_table aux point w =
      (List.range (2 ^ w)).map (fun i => aux + i • point) := by
  have key : ∀ k : ℕ, (List.range k).foldl
      (fun table i => table ++ [add (table.getD i 0) point]) [aux] =
      (List.range (k + 1)).map (fun i => aux + i • point) := by
    intro k
    induction k with
    | zero =>
        show [aux] = List.map (fun i => aux + i • point) [0]
        simp
    | succ n ih =>
        rw [List.range_succ, List.foldl_append, ih]
        show _ ++ [add ((((List.range (n + 1)).map fun i => aux + i • point)).getD n 0) point] = _
        have hget : (((List.range (n + 1)).map fun i => aux + i • point)).getD n 0 =
            aux + n • point := by
          rw [List.getD_eq_getElem?_getD, List.getElem?_map, List.getElem?_range (by omega)]
          rfl
        rw [hget]
        have hstep : add (aux + n • point) point = aux + (n + 1) • point := by
          rw [add, succ_nsmul, add_assoc]
        rw [hstep]
        rw [List.range_succ (n + 1), List.map_append]
        rfl
  rw [make_incremental_table, key]
  have h2 : 2 ^ w - 1 + 1 = 2 ^ w :=
    Nat.succ_pred_eq_of_pos (Nat.pos_pow_of_pos w (by norm_num))
  rw [h2]

theorem make_incremental_table_length (aux point : G) (w : ℕ) :
    (make_incremental_table aux point w).length = 2 ^ w := by
  rw [make_incremental_table_eq, List.length_map, List.length_range]

theorem make_incremental_table_get? (aux point : G) {w v : ℕ} (hv : v < 2 ^ w) :
    (make_incremental_table aux point w).get? v = some (aux + v • point) := by
  rw [make_incremental_table_eq, List.get?_eq_getElem?, List.getElem?_map,
    List.getElem?_range hv]
  rfl

theorem double_eq (p : G) : double p = (2 : ℕ) • p := by
  rw [double, two_nsmul]

theorem double_n_eq (p : G) : ∀ k : ℕ, double_n p k = 2 ^ k • p := by
  intro k
  induction k with
  | zero => simp [double_n]
  | succ n ih =>
      show double (double_n p n) = _
      rw [ih, double]
      rw [← two_nsmul, ← mul_nsmul, pow_succ]

theorem ladder_eq (p q : G) : ladder p q = (2 : ℕ) • p + q := by
  rw [ladder, two_nsmul]

/-! ### Horner-shaped accumulation -/

/-- The weighted value of a list of group contributions under the shared
doubling schedule: the head is doubled `window_size` times per remaining
element. -/
def hornerG (w : ℕ) : List G → G
  | [] => 0
  | u :: rest => 2 ^ (w * rest.length) • u + hornerG w rest

/-- The weighted value of a list of window values. -/
def hornerNat (w : ℕ) : List ℕ → ℕ
  | [] => 0
  | v :: rest => 2 ^ (w * rest.length) * v + hornerNat w rest

theorem hornerFold_eq (w : ℕ) : ∀ (us : List G) (a : G),
    us.foldl (fun acc u => 2 ^ w • acc + u) a = 2 ^ (w * us.length) • a + hornerG w us := by
  intro us
  induction us with
  | nil => intro a; simp [hornerG]
  | cons u rest ih =>
      intro a
      show rest.foldl _ (2 ^ w • a + u) = _
      rw [ih, smul_add, hornerG]
      have h1 : (2 : ℕ) ^ (w * rest.length) • 2 ^ w • a = 2 ^ (w * (u :: rest).length) • a := by
        rw [← mul_nsmul, List.length_cons, ← pow_add]
        congr 2
        ring
      rw [h1, add_assoc]

theorem hornerG_map_tab (w : ℕ) (A P : G) : ∀ vs : List ℕ,
    hornerG w (vs.map (fun v => A + v • P)) =
      auxCoeff w vs.length • A + hornerNat w vs • P := by
  intro vs
  induction vs with
  | nil => simp [hornerG, auxCoeff, hornerNat]
  | cons v rest ih =>
      show hornerG w ((A + v • P) :: rest.map (fun v => A + v • P)) = _
      rw [hornerG, ih, List.length_map]
      show _ = auxCoeff w (rest.length + 1) • A + hornerNat w (v :: rest) • P
      rw [auxCoeff, hornerNat]
      rw [smul_add, add_nsmul, add_nsmul, ← mul_nsmul]
      rw [mul_comm v (2 ^ (w * rest.length))]
      abel

theorem hornerG_map_add (w : ℕ) {β : Type} (x y : β → G) : ∀ js : List β,
    hornerG w (js.map (fun j => x j + y j)) =
      hornerG w (js.map x) + hornerG w (js.map y) := by
  intro js
  induction js with
  | nil => simp [hornerG]
  | cons j rest ih =>
      show hornerG w ((x j + y j) :: rest.map (fun j => x j + y j)) = _
      rw [hornerG, ih]
      show _ = hornerG w (x j :: rest.map x) + hornerG w (y j :: rest.map y)
      rw [hornerG, hornerG, List.length_map, List.length_map, List.length_map, smul_add]
      abel

theorem hornerG_map_zero (w : ℕ) {β : Type} : ∀ js : List β,
    hornerG w (js.map (fun _ => (0 : G))) = 0 := by
  intro js
  induction js with
  | nil => rfl
  | cons j rest ih =>
      show hornerG w ((0 : G) :: rest.map (fun _ => (0 : G))) = 0
      rw [hornerG, ih, smul_zero, add_zero]

/-! ### Chip-state lemmas -/

theorem get_mul_aux_ok {st : ChipState G} {g q : G} {w n : ℕ}
    (hg : st.aux_generator = some g) (hr : regLookup (w, n) st.aux_registry = some q) :
    get_mul_aux st w n = Except.ok (MulAux.mk g q) := by
  rw [get_mul_aux, hg, hr]
  rfl

theorem get_mul_aux_no_generator {st : ChipState G} {w n : ℕ}
    (hg : st.aux_generator = none) :
    get_mul_aux st w n = Except.error EccError.synthesis := by
  rw [get_mul_aux, hg]
  rfl

theorem get_mul_aux_no_entry {st : ChipState G} {g : G} {w n : ℕ}
    (hg : st.aux_generator = some g) (hr : regLookup (w, n) st.aux_registry = none) :
    get_mul_aux st w n = Except.error EccError.synthesis := by
  rw [get_mul_aux, hg, hr]
  rfl

theorem regLookup_insert_self {G : Type} (k : ℕ × ℕ) (v : G) :
    ∀ l : List ((ℕ × ℕ) × G), regLookup k (regInsert k v l) = some v := by
  intro l
  induction l with
  | nil => simp [regInsert, regLookup]
  | cons e rest ih =>
      rcases e with ⟨ek, ev⟩
      rw [regInsert]
      by_cases h : ek = k
      · rw [if_pos h, regLookup, if_pos rfl]
      · rw [if_neg h]
        simp only [regLookup]
        rw [if_neg h, ih]

theorem regLookup_insert_other {G : Type} {k k' : ℕ × ℕ} (v : G) (hne : k' ≠ k) :
    ∀ l : List ((ℕ × ℕ) × G), regLookup k (regInsert k' v l) = regLookup k l := by
  intro l
  induction l with
  | nil => simp [regInsert, regLookup, if_neg hne]
  | cons e rest ih =>
      rcases e with ⟨ek, ev⟩
      rw [regInsert]
      by_cases h : ek = k'
      · rw [if_pos h]
        simp only [regLookup]
        rw [if_neg hne, h, if_neg hne]
      · rw [if_neg h]
        simp only [regLookup]
        by_cases h2 : ek = k
        · rw [if_pos h2, if_pos h2]
        · rw [if_neg h2, if_neg h2, ih]

/-! ### Reduction of `mul` -/

theorem select_multi_table {w : ℕ} (g point : G) {sel : List Bool} (hsl : sel.length = w) :
    select_multi sel (make_incremental_table g point w) =
      Except.ok (g + lsbVal sel • point) := by
  have hv : lsbVal sel < 2 ^ w := by
    have := lsbVal_lt sel
    rwa [hsl] at this
  apply select_multi_ok
  · rw [make_incremental_table_length, hsl]
  · exact make_incremental_table_get? g point hv

theorem foldlM_mulLoopStep {w : ℕ} (g point : G) :
    ∀ (sels : List (List Bool)) (acc : G), (∀ x ∈ sels, x.length = w) →
      sels.foldlM (mulLoopStep (make_incremental_table g point w) w) acc =
        Except.ok (sels.foldl
          (fun a sel => ladder (double_n a (w - 1)) (g + lsbVal sel • point)) acc) := by
  intro sels
  induction sels with
  | nil => intro acc h; rfl
  | cons sel rest ih =>
      intro acc h
      have hsl : sel.length = w := h sel (List.mem_cons_self _ _)
      rw [List.foldlM_cons]
      have hstep : mulLoopStep (make_incremental_table g point w) w acc sel =
          Except.ok (ladder (double_n acc (w - 1)) (g + lsbVal sel • point)) := by
        rw [mulLoopStep, select_multi_table g point hsl]
        rfl
      rw [hstep, ok_bind, ih _ (fun x hx => h x (List.mem_cons_of_mem _ hx))]
      rfl

theorem schedule_closed (w : ℕ) (g point : G) (vs : List ℕ) (v0 : ℕ) :
    List.foldl (fun a v => 2 ^ w • a + (g + v • point)) (g + v0 • point) vs =
      auxCoeff w (vs.length + 1) • g + hornerNat w (v0 :: vs) • point := by
  have h1 : List.foldl (fun a v => 2 ^ w • a + (g + v • point)) (g + v0 • point) vs =
      (vs.map (fun v => g + v • point)).foldl (fun a u => 2 ^ w • a + u) (g + v0 • point) := by
    rw [List.foldl_map]
  rw [h1, hornerFold_eq, hornerG_map_tab, List.length_map]
  show _ = auxCoeff w (vs.length + 1) • g + hornerNat w (v0 :: vs) • point
  have ha : auxCoeff w (vs.length + 1) = 2 ^ (w * vs.length) + auxCoeff w vs.length := rfl
  have hh : hornerNat w (v0 :: vs) = 2 ^ (w * vs.length) * v0 + hornerNat w vs := rfl
  rw [ha, hh, smul_add, add_nsmul, add_nsmul, ← mul_nsmul, mul_comm v0 (2 ^ (w * vs.length))]
  abel

theorem hornerNat_chunks (w : ℕ) (hw : 0 < w) : ∀ (m : ℕ) (bs : List Bool),
    bs.length = m * w →
      hornerNat w ((List.range m).map (fun i => natMSB ((bs.drop (i * w)).take w))) =
        natMSB bs := by
  intro m
  induction m with
  | zero =>
      intro bs hbs
      have : bs = [] := List.length_eq_zero.mp (by omega)
      rw [this]
      rfl
  | succ n ih =>
      intro bs hbs
      have hsplit : bs = bs.take w ++ bs.drop w := (List.take_append_drop w bs).symm
      have hlr : (bs.drop w).length = n * w := by
        rw [List.length_drop, hbs]
        have : (n + 1) * w = n * w + w := by ring
        omega
      have hltake : (bs.take w).length = w := by
        rw [List.length_take, hbs]
        have : w ≤ (n + 1) * w := by
          calc w = 1 * w := (one_mul w).symm
            _ ≤ (n + 1) * w := Nat.mul_le_mul_right w (by omega)
        omega
      have hmaplist : (List.range (n + 1)).map (fun i => natMSB ((bs.drop (i * w)).take w)) =
          natMSB (bs.take w) ::
            (List.range n).map (fun i => natMSB (((bs.drop w).drop (i * w)).take w)) := by
        rw [List.range_succ_eq_map, List.map_cons, List.map_map]
        congr 1
        · show natMSB ((bs.drop (0 * w)).take w) = natMSB (bs.take w)
          rw [Nat.zero_mul, List.drop_zero]
        · apply List.map_congr_left
          intro i hi
          show natMSB ((bs.drop (Nat.succ i * w)).take w) = _
          have hd : bs.drop (Nat.succ i * w) = (bs.drop w).drop (i * w) := by
            rw [List.drop_drop]
            congr 1
            rw [Nat.succ_mul]
            ring
          rw [hd]
      rw [hmaplist, hornerNat, List.length_map, List.length_range, ih _ hlr]
      conv_rhs => rw [hsplit]
      show _ = natMSBFrom 0 (bs.take w ++ bs.drop w)
      rw [natMSBFrom_append, natMSBFrom_eq, hlr]
      have : natMSBFrom 0 (bs.take w) = natMSB (bs.take w) := rfl
      rw [this, mul_comm w n]

theorem mul_to_fold (st : ChipState G) (g q point : G) (s w numBits : ℕ)
    (s0 s1 : List Bool) (rest : List (List Bool))
    (hw : 0 < w) (hg : st.aux_generator = some g)
    (hr : regLookup (w, 1) st.aux_registry = some q)
    (hsels : ((List.range (numWindows numBits w)).map fun i =>
        (((paddedBits s w numBits).drop (i * w)).take w).reverse) = s0 :: s1 :: rest) :
    mul st point s w numBits = Except.ok (add (List.foldl
      (fun acc sel => ladder (double_n acc (w - 1)) (g + lsbVal sel • point))
      (add (double_n (g + lsbVal s0 • point) w) (g + lsbVal s1 • point)) rest) q) := by
  have hw' : w ≠ 0 := Nat.pos_iff_ne_zero.mp hw
  have hbslen : (paddedBits s w numBits).length = numWindows numBits w * w := by
    rw [paddedBits_length, paddedLen_eq numBits hw]
  have hmod : (paddedBits s w numBits).length % w = 0 := by
    rw [hbslen]
    exact Nat.mul_mod_left _ _
  have hwin : window (paddedBits s w numBits) w =
      Except.ok ((List.range (numWindows numBits w)).map fun i =>
        (((paddedBits s w numBits).drop (i * w)).take w).reverse) := by
    rw [window_ok _ hw' hmod, hbslen, Nat.mul_div_cancel _ hw]
  have hchunklen : ∀ i < numWindows numBits w,
      ((((paddedBits s w numBits).drop (i * w)).take w).reverse).length = w := by
    intro i hi
    rw [List.length_reverse, List.length_take, List.length_drop, hbslen]
    have : i * w + w ≤ numWindows numBits w * w := by
      have h1 : i + 1 ≤ numWindows numBits w := hi
      calc i * w + w = (i + 1) * w := by ring
        _ ≤ numWindows numBits w * w := Nat.mul_le_mul_right w h1
    omega
  have hall : ∀ x ∈ ((List.range (numWindows numBits w)).map fun i =>
      (((paddedBits s w numBits).drop (i * w)).take w).reverse), x.length = w := by
    intro x hx
    obtain ⟨i, hi, rfl⟩ := List.mem_map.mp hx
    exact hchunklen i (List.mem_range.mp hi)
  have hs0len : s0.length = w := hall s0 (by rw [hsels]; exact List.mem_cons_self _ _)
  have hs1len : s1.length = w :=
    hall s1 (by rw [hsels]; exact List.mem_cons_of_mem _ (List.mem_cons_self _ _))
  have hrestlen : ∀ x ∈ rest, x.length = w := by
    intro x hx
    exact hall x (by rw [hsels]; exact List.mem_cons_of_mem _ (List.mem_cons_of_mem _ hx))
  have hlg0 : listGet (s0 :: s1 :: rest) 0 = Except.ok s0 := rfl
  have hlg1 : listGet (s0 :: s1 :: rest) 1 = Except.ok s1 := rfl
  have hdrop2 : (s0 :: s1 :: rest).drop 2 = rest := rfl
  simp only [mul, assertB_true hw, ok_bind, get_mul_aux_ok hg hr,
    pad_ok s w numBits hw', hwin, hsels, hlg0, hlg1, hdrop2,
    select_multi_table g point hs0len, select_multi_table g point hs1len]
  rw [foldlM_mulLoopStep g point rest
    (add (double_n (g + lsbVal s0 • point) w) (g + lsbVal s1 • point)) hrestlen, ok_bind]
  rfl

theorem mul_reduces (st : ChipState G) (g q point : G) (s w numBits : ℕ)
    (hw : 0 < w) (hg : st.aux_generator = some g)
    (hr : regLookup (w, 1) st.aux_registry = some q)
    (hm : 2 ≤ numWindows numBits w) :
    mul st point s w numBits =
      Except.ok (auxCoeff w (numWindows numBits w) • g +
        natMSB (paddedBits s w numBits) • point + q) := by
  obtain ⟨s0, s1, rest, hsels⟩ : ∃ s0 s1 rest,
      ((List.range (numWindows numBits w)).map fun i =>
        (((paddedBits s w numBits).drop (i * w)).take w).reverse) = s0 :: s1 :: rest := by
    have hlen : ((List.range (numWindows numBits w)).map fun i =>
        (((paddedBits s w numBits).drop (i * w)).take w).reverse).length =
        numWindows numBits w := by
      rw [List.length_map, List.length_range]
    match hs : ((List.range (numWindows numBits w)).map fun i =>
        (((paddedBits s w numBits).drop (i * w)).take w).reverse) with
    | [] => rw [hs] at hlen; simp at hlen; omega
    | [a] => rw [hs] at hlen; simp at hlen; omega
    | a :: b :: r => exact ⟨a, b, r, rfl⟩
  have hw' : w ≠ 0 := Nat.pos_iff_ne_zero.mp hw
  have hbslen : (paddedBits s w numBits).length = numWindows numBits w * w := by
    rw [paddedBits_length, paddedLen_eq numBits hw]
  rw [mul_to_fold st g q point s w numBits s0 s1 rest hw hg hr hsels]
  have hfunext : (fun (acc : G) (sel : List Bool) =>
      ladder (double_n acc (w - 1)) (g + lsbVal sel • point)) =
      (fun acc sel => 2 ^ w • acc + (g + lsbVal sel • point)) := by
    funext a sel
    rw [ladder_eq, double_n_eq, ← mul_nsmul]
    have h2 : 2 ^ (w - 1) * 2 = 2 ^ w := by
      rw [← pow_succ]
      congr 1
      omega
    rw [h2]
  rw [hfunext]
  simp only [add, double_n_eq]
  congr 1
  have h1 : List.foldl (fun a sel => 2 ^ w • a + (g + lsbVal sel • point))
      (2 ^ w • (g + lsbVal s0 • point) + (g + lsbVal s1 • point)) rest =
      List.foldl (fun a sel => 2 ^ w • a + (g + lsbVal sel • point))
      (g + lsbVal s0 • point) (s1 :: rest) := rfl
  rw [h1]
  have h2 : List.foldl (fun a sel => 2 ^ w • a + (g + lsbVal sel • point))
      (g + lsbVal s0 • point) (s1 :: rest) =
      List.foldl (fun a v => 2 ^ w • a + (g + v • point))
      (g + lsbVal s0 • point) ((s1 :: rest).map lsbVal) := by
    rw [List.foldl_map]
  rw [h2, schedule_closed]
  have hv : (lsbVal s0 :: (s1 :: rest).map lsbVal) =
      (List.range (numWindows numBits w)).map
        (fun i => natMSB (((paddedBits s w numBits).drop (i * w)).take w)) := by
    have hc : (lsbVal s0 :: (s1 :: rest).map lsbVal) = (s0 :: s1 :: rest).map lsbVal := rfl
    rw [hc, ← hsels, List.map_map]
    apply List.map_congr_left
    intro i hi
    show lsbVal ((((paddedBits s w numBits).drop (i * w)).take w).reverse) = _
    rw [lsbVal_reverse]
  rw [hv, hornerNat_chunks w hw _ _ hbslen]
  have hlen2 : ((s1 :: rest).map lsbVal).length + 1 = numWindows numBits w := by
    have hL := congrArg List.length hsels
    rw [List.length_map, List.length_range] at hL
    rw [List.length_map]
    simp only [List.length_cons] at hL ⊢
    omega
  rw [hlen2]

/-! ### Error-path helpers -/

theorem error_bind {α β : Type} (e : EccError) (f : α → Res β) :
    (Except.error e >>= f : Res β) = Except.error e := rfl

theorem assertB_false {p : Prop} [Decidable p] (h : ¬p) :
    assertB p = Except.error EccError.panicked := if_neg h

/-! ### Claim theorems for the multiplication schedule -/

/-- Claim C1: for every assigned point, every scalar `s` of the scalar field
(including 0 and the maximal value) and every positive window size with at
least two windows (which holds for all window sizes 1..4 over a real scalar
field), `mul` returns the off-circuit scalar multiple `s • point`, provided
the auxiliary generator and the registry entry for `(window_size, 1)` have
been assigned. -/
theorem mul_scalar_multiple_correct (st : ChipState G) (g point : G) (s w numBits : ℕ)
    (hw : 0 < w) (hnb : 2 * w ≤ numBits) (hs : s < 2 ^ numBits)
    (hg : st.aux_generator = some g)
    (hr : regLookup (w, 1) st.aux_registry = some (make_mul_aux g w 1 numBits)) :
    mul st point s w numBits = Except.ok (s • point) := by
  rw [mul_reduces st g _ point s w numBits hw hg hr (two_le_numWindows hw hnb)]
  rw [natMSB_paddedBits w hs]
  have hco : (2 ^ 1 - 1) * auxCoeff w (numWindows numBits w) =
      auxCoeff w (numWindows numBits w) := by norm_num
  have hmm : make_mul_aux g w 1 numBits = -(auxCoeff w (numWindows numBits w) • g) := by
    rw [make_mul_aux, hco]
  rw [hmm]
  congr 1
  abel

/-- Witness for C1 at a concrete input. -/
theorem mul_scalar_multiple_correct_witness :
    mul (ChipState.mk (some (5:ℤ)) [((1, 1), make_mul_aux (5:ℤ) 1 1 2)]) (7:ℤ) 3 1 2 =
      Except.ok ((3:ℕ) • (7:ℤ)) :=
  mul_scalar_multiple_correct _ 5 7 3 1 2 (by decide) (by decide) (by decide) rfl rfl

/-- Claim C3: under the same preconditions as `mul`, the lookup table is
exactly `table[i] = aux.to_add + i • point`, every per-window selection
returns the table entry at the window's value, and `mul` follows exactly
the claimed schedule: `acc = select(window 0)`, `acc = double_n(acc, w)`,
`acc = acc + select(window 1)`, then per remaining window
`acc = double_n(acc, w-1)` followed by `acc = ladder(acc, select(window))`,
and finally `acc + aux.to_sub`. -/
theorem mul_follows_schedule (st : ChipState G) (g q point : G) (s w numBits : ℕ)
    (s0 s1 : List Bool) (rest : List (List Bool))
    (hw : 0 < w) (hg : st.aux_generator = some g)
    (hr : regLookup (w, 1) st.aux_registry = some q)
    (hwin : window (paddedBits s w numBits) w = Except.ok (s0 :: s1 :: rest)) :
    make_incremental_table g point w = (List.range (2 ^ w)).map (fun i => g + i • point) ∧
    (∀ sel ∈ s0 :: s1 :: rest,
      select_multi sel (make_incremental_table g point w) =
        Except.ok (g + lsbVal sel • point)) ∧
    mul st point s w numBits = Except.ok (add (List.foldl
      (fun acc sel => ladder (double_n acc (w - 1)) (g + lsbVal sel • point))
      (add (double_n (g + lsbVal s0 • point) w) (g + lsbVal s1 • point)) rest) q) := by
  have hw' : w ≠ 0 := Nat.pos_iff_ne_zero.mp hw
  have hbslen : (paddedBits s w numBits).length = numWindows numBits w * w := by
    rw [paddedBits_length, paddedLen_eq numBits hw]
  have hmod : (paddedBits s w numBits).length % w = 0 := by
    rw [hbslen]
    exact Nat.mul_mod_left _ _
  have hwin2 : window (paddedBits s w numBits) w =
      Except.ok ((List.range (numWindows numBits w)).map fun i =>
        (((paddedBits s w numBits).drop (i * w)).take w).reverse) := by
    rw [window_ok _ hw' hmod, hbslen, Nat.mul_div_cancel _ hw]
  have hsels : ((List.range (numWindows numBits w)).map fun i =>
      (((paddedBits s w numBits).drop (i * w)).take w).reverse) = s0 :: s1 :: rest := by
    have := hwin2.symm.trans hwin
    injection this
  have hchunklen : ∀ i < numWindows numBits w,
      ((((paddedBits s w numBits).drop (i * w)).take w).reverse).length = w := by
    intro i hi
    rw [List.length_reverse, List.length_take, List.length_drop, hbslen]
    have : i * w + w ≤ numWindows numBits w * w := by
      have h1 : i + 1 ≤ numWindows numBits w := hi
      calc i * w + w = (i + 1) * w := by ring
        _ ≤ numWindows numBits w * w := Nat.mul_le_mul_right w h1
    omega
  have hall : ∀ x ∈ s0 :: s1 :: rest, x.length = w := by
    intro x hx
    rw [← hsels] at hx
    obtain ⟨i, hi, rfl⟩ := List.mem_map.mp hx
    exact hchunklen i (List.mem_range.mp hi)
  refine ⟨make_incremental_table_eq g point w, ?_, ?_⟩
  · intro sel hsel
    exact select_multi_table g point (hall sel hsel)
  · exact mul_to_fold st g q point s w numBits s0 s1 rest hw hg hr hsels

/-- Witness for C3 at a concrete input. -/
theorem mul_follows_schedule_witness :
    make_incremental_table (5:ℤ) 7 1 = (List.range (2 ^ 1)).map (fun i => 5 + i • 7) ∧
    (∀ sel ∈ [true] :: [true] :: ([] : List (List Bool)),
      select_multi sel (make_incremental_table (5:ℤ) 7 1) =
        Except.ok (5 + lsbVal sel • 7)) ∧
    mul (ChipState.mk (some (5:ℤ)) [((1, 1), (100:ℤ))]) (7:ℤ) 3 1 2 =
      Except.ok (add (List.foldl
        (fun acc sel => ladder (double_n acc (1 - 1)) (5 + lsbVal sel • 7))
        (add (double_n (5 + lsbVal [true] • 7) 1) (5 + lsbVal [true] • 7)) []) 100) :=
  mul_follows_schedule _ 5 100 7 3 1 2 [true] [true] [] (by decide) rfl rfl rfl

/-- Claim C4 (amended): per-window table selection is a balanced binary
multiplexer tree that halves the candidate list once per selector bit, but
the rounds consume the selector from its least-significant bit (the
selector list is the window chunk reversed); after `w` rounds exactly one
entry remains, namely `table[v]` where `v` is the window's integer value
read most-significant-bit-first. -/
theorem select_multi_mux_tree (chunk : List Bool) (tab : List G) (t : G)
    (htab : tab.length = 2 ^ chunk.length)
    (hget : tab.get? (natMSB chunk) = some t) :
    select_multi chunk.reverse tab = Except.ok t ∧
    (chunk.reverse.foldl (fun reducer b => muxRound b reducer) tab).length = 1 := by
  have hlen : chunk.reverse.length = chunk.length := List.length_reverse chunk
  have htab2 : tab.length = 2 ^ chunk.reverse.length := by rw [hlen]; exact htab
  have hget2 : tab.get? (lsbVal chunk.reverse) = some t := by
    rw [lsbVal_reverse]
    exact hget
  exact ⟨select_multi_ok htab2 hget2, (selectFold chunk.reverse tab htab2).2⟩

/-- Witness for C4 (amended) at a concrete input. -/
theorem select_multi_mux_tree_witness :
    select_multi [false, true].reverse [(10:ℤ), 11, 12, 13] = Except.ok 11 ∧
    (([false, true].reverse).foldl
      (fun reducer b => muxRound b reducer) [(10:ℤ), 11, 12, 13]).length = 1 :=
  select_multi_mux_tree [false, true] [(10:ℤ), 11, 12, 13] 11 rfl rfl

/-- Definition following claim C4's words as stated: the multiplexer rounds
are 0-indexed from the most-significant selector bit, i.e. the fold
consumes the window's bits in most-significant-first order (the window
chunk unreversed), with the same adjacent pairing per round. -/
def select_multi_msb_first (window_bits : List Bool) (table : List G) : Res G := do
  _ ← assertB (table.length = 2 ^ window_bits.length)
  match window_bits.foldl (fun reducer b => muxRound b reducer) table with
  | r :: _ => pure r
  | [] => Except.error EccError.panicked

/-- Counterexample to claim C4 as stated: for a window with bits
`[false, true]` (integer value 1 read most-significant-bit-first) over the
four-entry table `[10, 11, 12, 13]`, consuming the selector from the
most-significant bit leaves `12 = table[2]`, not `table[1] = 11`, so the
rounds cannot be 0-indexed from the most-significant selector bit; the
code's `select_multi` (fed the reversed chunk, hence consuming the
least-significant bit first) indeed leaves `table[1]`. -/
theorem select_multi_msb_first_cex :
    select_multi_msb_first [false, true] [(10:ℤ), 11, 12, 13] = Except.ok 12 ∧
    select_multi [true, false] [(10:ℤ), 11, 12, 13] = Except.ok 11 ∧
    natMSB [false, true] = 1 ∧
    [(10:ℤ), 11, 12, 13].get? 1 = some 11 ∧ (12:ℤ) ≠ 11 :=
  ⟨rfl, rfl, rfl, rfl, by decide⟩

/-- Claim C10: `mul` unconditionally reads the second window, so with a
window size making `number_of_windows < 2` it panics (out-of-bounds index)
rather than returning an error value, and likewise a zero window size
panics on the assertion. -/
theorem mul_panics_without_two_windows :
    (∀ (st : ChipState G) (point : G) (s numBits : ℕ),
      mul st point s 0 numBits = Except.error EccError.panicked) ∧
    (∀ (st : ChipState G) (g q point : G) (s w numBits : ℕ), 0 < w → 0 < numBits →
      numWindows numBits w < 2 →
      st.aux_generator = some g → regLookup (w, 1) st.aux_registry = some q →
      mul st point s w numBits = Except.error EccError.panicked) := by
  constructor
  · intro st point s numBits
    rw [mul, assertB_false (by omega), error_bind]
  · intro st g q point s w numBits hw hnb hm hg hr
    have hw' : w ≠ 0 := Nat.pos_iff_ne_zero.mp hw
    have hm1 : numWindows numBits w = 1 := by
      have := one_le_numWindows hw hnb
      omega
    have hbslen : (paddedBits s w numBits).length = w := by
      rw [paddedBits_length, paddedLen_eq numBits hw, hm1, one_mul]
    have hmod : (paddedBits s w numBits).length % w = 0 := by rw [hbslen, Nat.mod_self]
    have hwin : window (paddedBits s w numBits) w =
        Except.ok [(((paddedBits s w numBits).drop (0 * w)).take w).reverse] := by
      rw [window_ok _ hw' hmod, hbslen, Nat.div_self hw]
      rfl
    have hs0len : ((((paddedBits s w numBits).drop (0 * w)).take w).reverse).length = w := by
      rw [List.length_reverse, List.length_take, Nat.zero_mul, List.drop_zero, hbslen]
      exact Nat.min_self w
    have hlg0 : listGet [(((paddedBits s w numBits).drop (0 * w)).take w).reverse] 0 =
        Except.ok ((((paddedBits s w numBits).drop (0 * w)).take w).reverse) := rfl
    have hlg1 : listGet [(((paddedBits s w numBits).drop (0 * w)).take w).reverse] 1 =
        (Except.error EccError.panicked : Res (List Bool)) := rfl
    simp only [mul, assertB_true hw, ok_bind, get_mul_aux_ok hg hr,
      pad_ok s w numBits hw', hwin, hlg0, hlg1,
      select_multi_table g point hs0len, error_bind]

/-- Witness for C10 at concrete inputs. -/
theorem mul_panics_without_two_windows_witness :
    mul (ChipState.mk (some (5:ℤ)) []) (7:ℤ) 3 0 4 = Except.error EccError.panicked ∧
    mul (ChipState.mk (some (5:ℤ)) [((4, 1), (9:ℤ))]) (7:ℤ) 3 4 4 =
      Except.error EccError.panicked :=
  ⟨mul_panics_without_two_windows.1 _ 7 3 4,
    mul_panics_without_two_windows.2 _ 5 9 7 3 4 4 (by decide) (by decide) (by decide) rfl rfl⟩

/-! ### Reduction of `mul_batch_1d_horizontal` -/

theorem mapM_map_ok {α β γ : Type} (h : α → β) (f : β → Res γ) (g : α → γ) :
    ∀ l : List α, (∀ a ∈ l, f (h a) = Except.ok (g a)) →
      (l.map h).mapM f = Except.ok (l.map g) := by
  intro l
  induction l with
  | nil => intro _; rfl
  | cons a rest ih =>
      intro hok
      rw [List.map_cons, List.mapM_cons, hok a (List.mem_cons_self _ _), ok_bind,
        ih (fun x hx => hok x (List.mem_cons_of_mem _ hx))]
      rfl

theorem natMSB_lt (l : List Bool) : natMSB l < 2 ^ l.length := by
  have h := lsbVal_lt l.reverse
  rw [lsbVal_reverse, List.length_reverse] at h
  exact h

theorem getD_of_get? {α : Type} {l : List α} {i : ℕ} {a d : α} (h : l.get? i = some a) :
    l.getD i d = a := by
  rw [List.getD_eq_getElem?_getD, ← List.get?_eq_getElem?, h]
  rfl

theorem get?_of_lt_length {α : Type} {l : List α} {i : ℕ} (h : i < l.length) :
    ∃ a, l.get? i = some a ∧ a ∈ l := by
  rw [List.get?_eq_getElem?]
  exact ⟨l[i], List.getElem?_eq_getElem h, List.getElem_mem h⟩

/-- The per-pair selected value at window `j` of the shared zip list. -/
def zipVal (j : ℕ) (tw : List G × List (List Bool)) : G :=
  tw.1.getD (lsbVal (tw.2.getD j [])) 0

theorem foldlM_batchAddStep {w : ℕ} (j : ℕ) :
    ∀ (tz : List (List G × List (List Bool))) (acc : G),
      (∀ tw ∈ tz, tw.1.length = 2 ^ w ∧ (∀ sel ∈ tw.2, sel.length = w) ∧ j < tw.2.length) →
      tz.foldlM (batchAddStep j) acc =
        Except.ok (acc + (tz.map (zipVal j)).sum) := by
  intro tz
  induction tz with
  | nil =>
      intro acc _
      show (pure acc : Res G) = _
      rw [List.map_nil, List.sum_nil, add_zero]
      rfl
  | cons tw rest ih =>
      intro acc hc
      obtain ⟨htab, hsels, hj⟩ := hc tw (List.mem_cons_self _ _)
      obtain ⟨sel, hsel, hselmem⟩ := get?_of_lt_length hj
      have hsellen : sel.length = w := hsels sel hselmem
      have hlv : lsbVal sel < 2 ^ w := by
        have := lsbVal_lt sel
        rwa [hsellen] at this
      obtain ⟨t, ht, _⟩ := get?_of_lt_length (show lsbVal sel < tw.1.length by omega)
      have hstep : batchAddStep j acc tw = Except.ok (acc + zipVal j tw) := by
        rw [batchAddStep, listGet_ok hsel, ok_bind,
          select_multi_ok (by rw [hsellen]; exact htab) ht, ok_bind]
        rw [zipVal, getD_of_get? hsel, getD_of_get? ht]
        rfl
      rw [List.foldlM_cons, hstep, ok_bind,
        ih _ (fun x hx => hc x (List.mem_cons_of_mem _ hx))]
      rw [List.map_cons, List.sum_cons, add_assoc]

theorem foldlM_batchWindowStep {w : ℕ} (tz : List (List G × List (List Bool)))
    (hc : ∀ tw ∈ tz, tw.1.length = 2 ^ w ∧ (∀ sel ∈ tw.2, sel.length = w)) :
    ∀ (js : List ℕ) (acc : G), (∀ j ∈ js, ∀ tw ∈ tz, j < tw.2.length) →
      js.foldlM (batchWindowStep tz w) acc =
        Except.ok (js.foldl (fun a j => 2 ^ w • a + (tz.map (zipVal j)).sum) acc) := by
  intro js
  induction js with
  | nil => intro acc _; rfl
  | cons j rest ih =>
      intro acc hj
      have hstep : batchWindowStep tz w acc j =
          Except.ok (2 ^ w • acc + (tz.map (zipVal j)).sum) := by
        rw [batchWindowStep, double_n_eq]
        exact foldlM_batchAddStep j tz _ (fun tw htw =>
          ⟨(hc tw htw).1, (hc tw htw).2, hj j (List.mem_cons_self _ _) tw htw⟩)
      rw [List.foldlM_cons, hstep, ok_bind,
        ih _ (fun x hx tw htw => hj x (List.mem_cons_of_mem _ hx) tw htw)]
      rfl

theorem range_map_getD {α : Type} (d : α) : ∀ V : List α,
    (List.range V.length).map (fun j => V.getD j d) = V := by
  intro V
  induction V with
  | nil => rfl
  | cons v vt ih =>
      rw [List.length_cons, List.range_succ_eq_map, List.map_cons, List.map_map]
      have hcomp : ((fun j => (v :: vt).getD j d) ∘ Nat.succ) = fun j => vt.getD j d := by
        funext j
        rfl
      rw [hcomp, ih]
      rfl

theorem sum_map_add_dist {α : Type} (f h : α → G) : ∀ l : List α,
    (l.map (fun x => f x + h x)).sum = (l.map f).sum + (l.map h).sum := by
  intro l
  induction l with
  | nil => simp
  | cons a rest ih =>
      rw [List.map_cons, List.map_cons, List.map_cons, List.sum_cons, List.sum_cons,
        List.sum_cons, ih]
      abel

theorem buildTables_cons (w : ℕ) (aux0 : G) (p : G) (ps : List G) :
    buildTables w aux0 (p :: ps) =
      make_incremental_table aux0 p w :: buildTables w (double aux0) ps := by
  cases ps with
  | nil => rfl
  | cons p2 rest => rfl

/-- The selector list which `window` produces for one scalar. -/
def pairSelectors (w numBits scalar : ℕ) : List (List Bool) :=
  (List.range (numWindows numBits w)).map fun i =>
    (((paddedBits scalar w numBits).drop (i * w)).take w).reverse

theorem chunk_length (w numBits scalar : ℕ) (hw : 0 < w) {i : ℕ}
    (hi : i < numWindows numBits w) :
    (((paddedBits scalar w numBits).drop (i * w)).take w).length = w := by
  have hbslen : (paddedBits scalar w numBits).length = numWindows numBits w * w := by
    rw [paddedBits_length, paddedLen_eq numBits hw]
  rw [List.length_take, List.length_drop, hbslen]
  have : i * w + w ≤ numWindows numBits w * w := by
    have h1 : i + 1 ≤ numWindows numBits w := hi
    calc i * w + w = (i + 1) * w := by ring
      _ ≤ numWindows numBits w * w := Nat.mul_le_mul_right w h1
  omega

theorem pairSelectors_getD (w numBits scalar : ℕ) {j : ℕ}
    (hj : j < numWindows numBits w) :
    (pairSelectors w numBits scalar).getD j [] =
      (((paddedBits scalar w numBits).drop (j * w)).take w).reverse := by
  apply getD_of_get?
  rw [pairSelectors, List.get?_eq_getElem?, List.getElem?_map, List.getElem?_range hj]
  rfl

theorem pairSelectors_length (w numBits scalar : ℕ) :
    (pairSelectors w numBits scalar).length = numWindows numBits w := by
  rw [pairSelectors, List.length_map, List.length_range]

theorem pairSelectors_sel_length (w numBits scalar : ℕ) (hw : 0 < w) :
    ∀ sel ∈ pairSelectors w numBits scalar, sel.length = w := by
  intro sel hsel
  obtain ⟨i, hi, rfl⟩ := List.mem_map.mp hsel
  rw [List.length_reverse]
  exact chunk_length w numBits scalar hw (List.mem_range.mp hi)

theorem zipVal_pair (w numBits : ℕ) (hw : 0 < w) (A point : G) (scalar : ℕ) {j : ℕ}
    (hj : j < numWindows numBits w) :
    zipVal j (make_incremental_table A point w, pairSelectors w numBits scalar) =
      A + (natMSB (((paddedBits scalar w numBits).drop (j * w)).take w)) • point := by
  rw [zipVal]
  show (make_incremental_table A point w).getD
    (lsbVal ((pairSelectors w numBits scalar).getD j [])) 0 = _
  rw [pairSelectors_getD w numBits scalar hj, lsbVal_reverse]
  have hv : natMSB (((paddedBits scalar w numBits).drop (j * w)).take w) < 2 ^ w := by
    have h := natMSB_lt (((paddedBits scalar w numBits).drop (j * w)).take w)
    rwa [chunk_length w numBits scalar hw hj] at h
  exact getD_of_get? (make_incremental_table_get? A point hv)

theorem single_pair_closed (w : ℕ) (A point : G) (v0 : ℕ) (vt : List ℕ) :
    2 ^ (w * vt.length) • (A + v0 • point) +
      hornerG w (vt.map (fun v => A + v • point)) =
    auxCoeff w (vt.length + 1) • A + hornerNat w (v0 :: vt) • point := by
  rw [hornerG_map_tab]
  have ha : auxCoeff w (vt.length + 1) = 2 ^ (w * vt.length) + auxCoeff w vt.length := rfl
  have hh : hornerNat w (v0 :: vt) = 2 ^ (w * vt.length) * v0 + hornerNat w vt := rfl
  rw [ha, hh, smul_add, add_nsmul, add_nsmul, ← mul_nsmul, mul_comm v0 (2 ^ (w * vt.length))]
  abel

theorem single_pair_indexed (w numBits : ℕ) (hw : 0 < w) (hm : 1 ≤ numWindows numBits w)
    (A point : G) (scalar : ℕ) (hs : scalar < 2 ^ numBits) :
    2 ^ (w * (numWindows numBits w - 1)) •
        (A + (natMSB (((paddedBits scalar w numBits).drop (0 * w)).take w)) • point) +
      hornerG w (((List.range (numWindows numBits w)).drop 1).map
        (fun j => A + (natMSB (((paddedBits scalar w numBits).drop (j * w)).take w)) • point)) =
    auxCoeff w (numWindows numBits w) • A + scalar • point := by
  obtain ⟨mt, hmt⟩ : ∃ mt, numWindows numBits w = mt + 1 := ⟨numWindows numBits w - 1, by omega⟩
  have hdrop : (List.range (numWindows numBits w)).drop 1 = (List.range mt).map Nat.succ := by
    rw [hmt, List.range_succ_eq_map]
    rfl
  have hmap : ((List.range (numWindows numBits w)).drop 1).map
      (fun j => A + (natMSB (((paddedBits scalar w numBits).drop (j * w)).take w)) • point) =
      ((List.range mt).map
        (fun j => natMSB (((paddedBits scalar w numBits).drop (Nat.succ j * w)).take w))).map
        (fun v => A + v • point) := by
    rw [hdrop, List.map_map, List.map_map]
    rfl
  rw [hmap]
  have hlen : ((List.range mt).map
      (fun j => natMSB (((paddedBits scalar w numBits).drop (Nat.succ j * w)).take w))).length =
      mt := by
    rw [List.length_map, List.length_range]
  have hexp : numWindows numBits w - 1 = ((List.range mt).map
      (fun j => natMSB (((paddedBits scalar w numBits).drop (Nat.succ j * w)).take w))).length := by
    rw [hlen]
    omega
  rw [hexp, single_pair_closed]
  congr 1
  · rw [hlen, hmt]
  · have hconsv : (natMSB (((paddedBits scalar w numBits).drop (0 * w)).take w)) ::
        (List.range mt).map
          (fun j => natMSB (((paddedBits scalar w numBits).drop (Nat.succ j * w)).take w)) =
        (List.range (numWindows numBits w)).map
          (fun i => natMSB (((paddedBits scalar w numBits).drop (i * w)).take w)) := by
      rw [hmt, List.range_succ_eq_map, List.map_cons, List.map_map]
      rfl
    rw [hconsv]
    have hbslen : (paddedBits scalar w numBits).length = numWindows numBits w * w := by
      rw [paddedBits_length, paddedLen_eq numBits hw]
    rw [hornerNat_chunks w hw _ _ hbslen, natMSB_paddedBits w hs]

theorem foldl_index_horner (w : ℕ) (F : ℕ → G) : ∀ (js : List ℕ) (a : G),
    js.foldl (fun acc j => 2 ^ w • acc + F j) a =
      2 ^ (w * js.length) • a + hornerG w (js.map F) := by
  intro js
  induction js with
  | nil => intro a; simp [hornerG]
  | cons j rest ih =>
      intro a
      show rest.foldl _ (2 ^ w • a + F j) = _
      rw [ih, smul_add]
      show _ = 2 ^ (w * (rest.length + 1)) • a + hornerG w (F j :: rest.map F)
      rw [hornerG, List.length_map]
      have h1 : (2 : ℕ) ^ (w * rest.length) • 2 ^ w • a = 2 ^ (w * (rest.length + 1)) • a := by
        rw [← mul_nsmul, ← pow_add]
        congr 2
        ring
      rw [h1, add_assoc]

theorem batch_closed (w numBits : ℕ) (hw : 0 < w) (hm : 1 ≤ numWindows numBits w) :
    ∀ (ps : List (G × ℕ)) (aux0 : G), (∀ pr ∈ ps, pr.2 < 2 ^ numBits) →
    2 ^ (w * (numWindows numBits w - 1)) •
        (((buildTables w aux0 (ps.map Prod.fst)).zip
          (ps.map (fun pr => pairSelectors w numBits pr.2))).map (zipVal 0)).sum +
      hornerG w (((List.range (numWindows numBits w)).drop 1).map
        (fun j => (((buildTables w aux0 (ps.map Prod.fst)).zip
          (ps.map (fun pr => pairSelectors w numBits pr.2))).map (zipVal j)).sum)) =
    auxCoeff w (numWindows numBits w) • ((2 ^ ps.length - 1) • aux0) +
      (ps.map (fun pr => pr.2 • pr.1)).sum := by
  intro ps
  induction ps with
  | nil =>
      intro aux0 _
      show (2:ℕ) ^ (w * (numWindows numBits w - 1)) • (List.sum []) +
        hornerG w (((List.range (numWindows numBits w)).drop 1).map (fun _ => List.sum [])) = _
      rw [List.sum_nil, smul_zero, hornerG_map_zero, add_zero]
      show (0:G) = auxCoeff w (numWindows numBits w) • ((2 ^ 0 - 1) • aux0) + List.sum []
      rw [List.sum_nil, add_zero]
      norm_num
  | cons pr prest ih =>
      intro aux0 hsc
      have hz : (buildTables w aux0 ((pr :: prest).map Prod.fst)).zip
          ((pr :: prest).map (fun x => pairSelectors w numBits x.2)) =
          (make_incremental_table aux0 pr.1 w, pairSelectors w numBits pr.2) ::
            ((buildTables w (double aux0) (prest.map Prod.fst)).zip
              (prest.map (fun x => pairSelectors w numBits x.2))) := by
        rw [List.map_cons, List.map_cons, buildTables_cons]
        rfl
      rw [hz]
      have hmapsum : ∀ j : ℕ,
          (((make_incremental_table aux0 pr.1 w, pairSelectors w numBits pr.2) ::
            ((buildTables w (double aux0) (prest.map Prod.fst)).zip
              (prest.map (fun x => pairSelectors w numBits x.2)))).map (zipVal j)).sum =
          zipVal j (make_incremental_table aux0 pr.1 w, pairSelectors w numBits pr.2) +
            (((buildTables w (double aux0) (prest.map Prod.fst)).zip
              (prest.map (fun x => pairSelectors w numBits x.2))).map (zipVal j)).sum := by
        intro j
        rw [List.map_cons, List.sum_cons]
      rw [hmapsum 0]
      have hmapcong : ((List.range (numWindows numBits w)).drop 1).map
          (fun j => (((make_incremental_table aux0 pr.1 w, pairSelectors w numBits pr.2) ::
            ((buildTables w (double aux0) (prest.map Prod.fst)).zip
              (prest.map (fun x => pairSelectors w numBits x.2)))).map (zipVal j)).sum) =
          ((List.range (numWindows numBits w)).drop 1).map
          (fun j =>
            zipVal j (make_incremental_table aux0 pr.1 w, pairSelectors w numBits pr.2) +
            (((buildTables w (double aux0) (prest.map Prod.fst)).zip
              (prest.map (fun x => pairSelectors w numBits x.2))).map (zipVal j)).sum) :=
        List.map_congr_left (fun j _ => hmapsum j)
      rw [hmapcong, hornerG_map_add, smul_add]
      have hIH := ih (double aux0) (fun x hx => hsc x (List.mem_cons_of_mem _ hx))
      have hjlt : ∀ j ∈ (List.range (numWindows numBits w)).drop 1,
          j < numWindows numBits w := by
        intro j hj
        have : j ∈ List.range (numWindows numBits w) := by
          have hsub := List.drop_subset 1 (List.range (numWindows numBits w))
          exact hsub hj
        exact List.mem_range.mp this
      have hzv0 : zipVal 0 (make_incremental_table aux0 pr.1 w, pairSelectors w numBits pr.2) =
          aux0 + (natMSB (((paddedBits pr.2 w numBits).drop (0 * w)).take w)) • pr.1 := by
        rw [zipVal_pair w numBits hw aux0 pr.1 pr.2 (by omega)]
      have hzvcong : ((List.range (numWindows numBits w)).drop 1).map
          (fun j => zipVal j (make_incremental_table aux0 pr.1 w, pairSelectors w numBits pr.2)) =
          ((List.range (numWindows numBits w)).drop 1).map
          (fun j => aux0 + (natMSB (((paddedBits pr.2 w numBits).drop (j * w)).take w)) • pr.1) :=
        List.map_congr_left (fun j hj => zipVal_pair w numBits hw aux0 pr.1 pr.2 (hjlt j hj))
      rw [hzv0, hzvcong]
      have hsingle := single_pair_indexed w numBits hw hm aux0 pr.1 pr.2
        (hsc pr (List.mem_cons_self _ _))
      have hgoal1 : 2 ^ (w * (numWindows numBits w - 1)) •
            (aux0 + (natMSB (((paddedBits pr.2 w numBits).drop (0 * w)).take w)) • pr.1) +
          (2 ^ (w * (numWindows numBits w - 1)) •
            (((buildTables w (double aux0) (prest.map Prod.fst)).zip
              (prest.map (fun x => pairSelectors w numBits x.2))).map (zipVal 0)).sum) +
          (hornerG w (((List.range (numWindows numBits w)).drop 1).map
            (fun j => aux0 +
              (natMSB (((paddedBits pr.2 w numBits).drop (j * w)).take w)) • pr.1)) +
           hornerG w (((List.range (numWindows numBits w)).drop 1).map
            (fun j => (((buildTables w (double aux0) (prest.map Prod.fst)).zip
              (prest.map (fun x => pairSelectors w numBits x.2))).map (zipVal j)).sum))) =
          (auxCoeff w (numWindows numBits w) • aux0 + pr.2 • pr.1) +
          (auxCoeff w (numWindows numBits w) • ((2 ^ prest.length - 1) • (double aux0)) +
            (prest.map (fun x => x.2 • x.1)).sum) := by
        rw [← hsingle, ← hIH]
        abel
      rw [hgoal1]
      have hpow : auxCoeff w (numWindows numBits w) • aux0 +
          auxCoeff w (numWindows numBits w) • ((2 ^ prest.length - 1) • (double aux0)) =
          auxCoeff w (numWindows numBits w) • ((2 ^ (prest.length + 1) - 1) • aux0) := by
        rw [double_eq]
        have h1 : (1:ℕ) ≤ 2 ^ prest.length := Nat.one_le_two_pow
        have h2 : (2:ℕ) ^ (prest.length + 1) = 2 ^ prest.length * 2 := pow_succ 2 _
        have hinner : ((2:ℕ) ^ prest.length - 1) • ((2:ℕ) • aux0) =
            ((2 ^ (prest.length + 1)) - 2) • aux0 := by
          rw [← mul_nsmul]
          congr 1
          omega
        rw [hinner, ← smul_add]
        congr 1
        nth_rewrite 1 [← one_smul ℕ aux0]
        rw [← add_nsmul]
        congr 1
        omega
      show _ = auxCoeff w (numWindows numBits w) • ((2 ^ ((pr :: prest).length) - 1) • aux0) +
        ((pr :: prest).map (fun x => x.2 • x.1)).sum
      rw [List.map_cons, List.sum_cons, List.length_cons, ← hpow]
      abel

theorem window_paddedBits (w numBits scalar : ℕ) (hw : 0 < w) :
    window (paddedBits scalar w numBits) w = Except.ok (pairSelectors w numBits scalar) := by
  have hw' : w ≠ 0 := Nat.pos_iff_ne_zero.mp hw
  have hbslen : (paddedBits scalar w numBits).length = numWindows numBits w * w := by
    rw [paddedBits_length, paddedLen_eq numBits hw]
  have hmod : (paddedBits scalar w numBits).length % w = 0 := by
    rw [hbslen]
    exact Nat.mul_mod_left _ _
  rw [window_ok _ hw' hmod, hbslen, Nat.mul_div_cancel _ hw]
  rfl

theorem buildTables_mem (w : ℕ) : ∀ (pts : List G) (aux0 : G) (x : List G),
    x ∈ buildTables w aux0 pts → ∃ A p, x = make_incremental_table A p w := by
  intro pts
  induction pts with
  | nil => intro aux0 x hx; exact absurd hx (List.not_mem_nil x)
  | cons p rest ih =>
      intro aux0 x hx
      rw [buildTables_cons] at hx
      rcases List.mem_cons.mp hx with h | h
      · exact ⟨aux0, p, h⟩
      · exact ih (double aux0) x h

theorem tz_conditions (w numBits : ℕ) (hw : 0 < w) (g0 : G) (ps : List (G × ℕ)) :
    ∀ tw ∈ (buildTables w g0 (ps.map Prod.fst)).zip
        (ps.map (fun pr => pairSelectors w numBits pr.2)),
      tw.1.length = 2 ^ w ∧ (∀ sel ∈ tw.2, sel.length = w) ∧
        tw.2.length = numWindows numBits w := by
  intro tw htw
  obtain ⟨h1, h2⟩ := List.of_mem_zip htw
  obtain ⟨A, p, hA⟩ := buildTables_mem w (ps.map Prod.fst) g0 tw.1 h1
  obtain ⟨pr, _, hpr⟩ := List.mem_map.mp h2
  refine ⟨?_, ?_, ?_⟩
  · rw [hA, make_incremental_table_length]
  · rw [← hpr]
    exact pairSelectors_sel_length w numBits pr.2 hw
  · rw [← hpr, pairSelectors_length]

set_option maxHeartbeats 2000000 in
theorem mul_batch_reduces (st : ChipState G) (g q : G) (p0 : G × ℕ) (prest : List (G × ℕ))
    (w numBits : ℕ) (hw : 0 < w) (hnb : 0 < numBits)
    (hg : st.aux_generator = some g)
    (hr : regLookup (w, (p0 :: prest).length) st.aux_registry = some q)
    (hs : ∀ pr ∈ p0 :: prest, pr.2 < 2 ^ numBits) :
    mul_batch_1d_horizontal st (p0 :: prest) w numBits =
      Except.ok (auxCoeff w (numWindows numBits w) • ((2 ^ (p0 :: prest).length - 1) • g) +
        ((p0 :: prest).map (fun pr => pr.2 • pr.1)).sum + q) := by
  have hw' : w ≠ 0 := Nat.pos_iff_ne_zero.mp hw
  have hm : 1 ≤ numWindows numBits w := one_le_numWindows hw hnb
  have hpad : ((p0 :: prest).map (fun pr => decompose pr.2 numBits)).mapM
      (fun d => pad d w numBits) =
      Except.ok ((p0 :: prest).map (fun pr => paddedBits pr.2 w numBits)) :=
    mapM_map_ok (fun pr => decompose pr.2 numBits) (fun d => pad d w numBits)
      (fun pr => paddedBits pr.2 w numBits) (p0 :: prest)
      (fun pr _ => pad_ok pr.2 w numBits hw')
  have hwinM : ((p0 :: prest).map (fun pr => paddedBits pr.2 w numBits)).mapM
      (fun bs => window bs w) =
      Except.ok ((p0 :: prest).map (fun pr => pairSelectors w numBits pr.2)) :=
    mapM_map_ok (fun pr => paddedBits pr.2 w numBits) (fun bs => window bs w)
      (fun pr => pairSelectors w numBits pr.2) (p0 :: prest)
      (fun pr _ => window_paddedBits w numBits pr.2 hw)
  have hmapw : (p0 :: prest).map (fun pr => pairSelectors w numBits pr.2) =
      pairSelectors w numBits p0.2 :: prest.map (fun pr => pairSelectors w numBits pr.2) := rfl
  have hlgw0 : listGet (pairSelectors w numBits p0.2 ::
      prest.map (fun pr => pairSelectors w numBits pr.2)) 0 =
      Except.ok (pairSelectors w numBits p0.2) := rfl
  have hfst : (p0 :: prest).map (fun pr => pr.1) = (p0 :: prest).map Prod.fst := rfl
  have htbl : buildTables w g ((p0 :: prest).map Prod.fst) =
      make_incremental_table g p0.1 w :: buildTables w (double g) (prest.map Prod.fst) := by
    rw [List.map_cons, buildTables_cons]
  have hlgt0 : listGet (make_incremental_table g p0.1 w ::
      buildTables w (double g) (prest.map Prod.fst)) 0 =
      Except.ok (make_incremental_table g p0.1 w) := rfl
  have hsel0get : (pairSelectors w numBits p0.2).get? 0 =
      some ((((paddedBits p0.2 w numBits).drop (0 * w)).take w).reverse) := by
    rw [pairSelectors, List.get?_eq_getElem?, List.getElem?_map, List.getElem?_range (by omega)]
    rfl
  have hsel0len : ((((paddedBits p0.2 w numBits).drop (0 * w)).take w).reverse).length = w := by
    rw [List.length_reverse]
    exact chunk_length w numBits p0.2 hw (by omega)
  have hzipdrop : (buildTables w (double g) (prest.map Prod.fst)).zip
      (prest.map (fun pr => pairSelectors w numBits pr.2)) =
      ((make_incremental_table g p0.1 w ::
        buildTables w (double g) (prest.map Prod.fst)).drop 1).zip
      ((pairSelectors w numBits p0.2 ::
        prest.map (fun pr => pairSelectors w numBits pr.2)).drop 1) := rfl
  have hcondrest := tz_conditions w numBits hw (double g) prest
  have hfold1 : ((buildTables w (double g) (prest.map Prod.fst)).zip
      (prest.map (fun pr => pairSelectors w numBits pr.2))).foldlM (batchAddStep 0)
      (g + lsbVal ((((paddedBits p0.2 w numBits).drop (0 * w)).take w).reverse) • p0.1) =
      Except.ok ((g + lsbVal ((((paddedBits p0.2 w numBits).drop (0 * w)).take w).reverse) • p0.1) +
        (((buildTables w (double g) (prest.map Prod.fst)).zip
          (prest.map (fun pr => pairSelectors w numBits pr.2))).map (zipVal 0)).sum) := by
    apply foldlM_batchAddStep
    intro tw htw
    obtain ⟨h1, h2, h3⟩ := hcondrest tw htw
    exact ⟨h1, h2, by omega⟩
  have hwlen : (pairSelectors w numBits p0.2).length = numWindows numBits w :=
    pairSelectors_length w numBits p0.2
  have hcondfull := tz_conditions w numBits hw g (p0 :: prest)
  have hfold2 : ∀ acc : G, ((List.range (numWindows numBits w)).drop 1).foldlM
      (batchWindowStep ((make_incremental_table g p0.1 w ::
        buildTables w (double g) (prest.map Prod.fst)).zip
        (pairSelectors w numBits p0.2 ::
          prest.map (fun pr => pairSelectors w numBits pr.2))) w) acc =
      Except.ok (((List.range (numWindows numBits w)).drop 1).foldl
        (fun a j => 2 ^ w • a +
          (((make_incremental_table g p0.1 w ::
            buildTables w (double g) (prest.map Prod.fst)).zip
            (pairSelectors w numBits p0.2 ::
              prest.map (fun pr => pairSelectors w numBits pr.2))).map (zipVal j)).sum) acc) := by
    intro acc
    apply foldlM_batchWindowStep
    · intro tw htw
      have htw2 : tw ∈ (buildTables w g ((p0 :: prest).map Prod.fst)).zip
          ((p0 :: prest).map (fun pr => pairSelectors w numBits pr.2)) := by
        rw [htbl, hmapw]
        exact htw
      obtain ⟨h1, h2, _⟩ := hcondfull tw htw2
      exact ⟨h1, h2⟩
    · intro j hj tw htw
      have htw2 : tw ∈ (buildTables w g ((p0 :: prest).map Prod.fst)).zip
          ((p0 :: prest).map (fun pr => pairSelectors w numBits pr.2)) := by
        rw [htbl, hmapw]
        exact htw
      obtain ⟨_, _, h3⟩ := hcondfull tw htw2
      rw [h3]
      have : j ∈ List.range (numWindows numBits w) :=
        List.drop_subset 1 (List.range (numWindows numBits w)) hj
      exact List.mem_range.mp this
  simp only [mul_batch_1d_horizontal, assertB_true hw,
    assertB_true (show 0 < (p0 :: prest).length by simp), ok_bind,
    get_mul_aux_ok hg hr, hpad, hwinM, hmapw, hlgw0, hfst, htbl, hlgt0,
    listGet_ok hsel0get, select_multi_table g p0.1 hsel0len, hwlen]
  rw [← hzipdrop, hfold1, ok_bind, hfold2, ok_bind]
  congr 1
  have haccInit : g + lsbVal ((((paddedBits p0.2 w numBits).drop (0 * w)).take w).reverse) • p0.1 +
      (((buildTables w (double g) (prest.map Prod.fst)).zip
        (prest.map (fun pr => pairSelectors w numBits pr.2))).map (zipVal 0)).sum =
      (((make_incremental_table g p0.1 w ::
        buildTables w (double g) (prest.map Prod.fst)).zip
        (pairSelectors w numBits p0.2 ::
          prest.map (fun pr => pairSelectors w numBits pr.2))).map (zipVal 0)).sum := by
    have hz : (make_incremental_table g p0.1 w ::
        buildTables w (double g) (prest.map Prod.fst)).zip
        (pairSelectors w numBits p0.2 ::
          prest.map (fun pr => pairSelectors w numBits pr.2)) =
        (make_incremental_table g p0.1 w, pairSelectors w numBits p0.2) ::
          (buildTables w (double g) (prest.map Prod.fst)).zip
            (prest.map (fun pr => pairSelectors w numBits pr.2)) := rfl
    rw [hz, List.map_cons, List.sum_cons]
    congr 1
    rw [zipVal_pair w numBits hw g p0.1 p0.2 (by omega), lsbVal_reverse]
  rw [haccInit]
  simp only [add]
  rw [foldl_index_horner]
  have hlend : ((List.range (numWindows numBits w)).drop 1).length =
      numWindows numBits w - 1 := by
    rw [List.length_drop, List.length_range]
  rw [hlend, ← htbl, ← hmapw, batch_closed w numBits hw hm (p0 :: prest) g hs]

/-- Claim C2: for every nonempty list of assigned (point, scalar) pairs and
every positive window size, `mul_batch_1d_horizontal` returns the
off-circuit multi-scalar sum of the pairs, sharing one accumulator and one
doubling schedule, provided the auxiliary generator and the registry entry
for `(window_size, pairs.length)` have been assigned. -/
theorem mul_batch_matches_msm (st : ChipState G) (g : G) (pairs : List (G × ℕ))
    (w numBits : ℕ) (hw : 0 < w) (hn : 0 < pairs.length) (hnb : 0 < numBits)
    (hs : ∀ pr ∈ pairs, pr.2 < 2 ^ numBits)
    (hg : st.aux_generator = some g)
    (hr : regLookup (w, pairs.length) st.aux_registry =
      some (make_mul_aux g w pairs.length numBits)) :
    mul_batch_1d_horizontal st pairs w numBits =
      Except.ok ((pairs.map (fun pr => pr.2 • pr.1)).sum) := by
  obtain ⟨p0, prest, rfl⟩ : ∃ p0 prest, pairs = p0 :: prest := by
    cases pairs with
    | nil => simp at hn
    | cons a b => exact ⟨a, b, rfl⟩
  rw [mul_batch_reduces st g _ p0 prest w numBits hw hnb hg hr hs]
  congr 1
  have hmm : make_mul_aux g w (p0 :: prest).length numBits =
      -((((2 ^ (p0 :: prest).length) - 1) * auxCoeff w (numWindows numBits w)) • g) := rfl
  rw [hmm]
  have hsw : auxCoeff w (numWindows numBits w) • ((2 ^ (p0 :: prest).length - 1) • g) =
      (((2 ^ (p0 :: prest).length) - 1) * auxCoeff w (numWindows numBits w)) • g :=
    (mul_nsmul g _ _).symm
  rw [hsw]
  abel

/-- Witness for C2 at a concrete input with two pairs. -/
theorem mul_batch_matches_msm_witness :
    mul_batch_1d_horizontal
      (ChipState.mk (some (5:ℤ)) [((1, 2), make_mul_aux (5:ℤ) 1 2 2)])
      [((7:ℤ), 3), ((11:ℤ), 2)] 1 2 =
      Except.ok (([((7:ℤ), 3), ((11:ℤ), 2)].map (fun pr => pr.2 • pr.1)).sum) :=
  mul_batch_matches_msm _ 5 _ 1 2 (by decide) (by decide) (by decide)
    (by decide) rfl rfl

/-! ### Chip-state claims -/

/-- Claim C6: `get_mul_aux` returns a synthesis error (not a constraint
failure and not a panic) when the auxiliary generator is missing or the
registry has no `(window_size, number_of_pairs)` entry; after
`assign_aux_generator` and a matching `assign_aux` it succeeds, and the
call (an `&self` method) leaves the chip state unchanged, so repeated
calls return the identical result. -/
theorem get_mul_aux_spec :
    (∀ (st : ChipState G) (w n : ℕ), st.aux_generator = none →
      get_mul_aux st w n = Except.error EccError.synthesis) ∧
    (∀ (st : ChipState G) (g : G) (w n : ℕ), st.aux_generator = some g →
      regLookup (w, n) st.aux_registry = none →
      get_mul_aux st w n = Except.error EccError.synthesis) ∧
    (∀ (st st2 : ChipState G) (g : G) (w n numBits : ℕ),
      assign_aux numBits (assign_aux_generator st g) w n = Except.ok st2 →
      get_mul_aux st2 w n = Except.ok (MulAux.mk g (make_mul_aux g w n numBits)) ∧
      get_mul_aux_call st2 w n =
        Except.ok (MulAux.mk g (make_mul_aux g w n numBits), st2)) := by
  refine ⟨?_, ?_, ?_⟩
  · intro st w n hg
    exact get_mul_aux_no_generator hg
  · intro st g w n hg hr
    exact get_mul_aux_no_entry hg hr
  · intro st st2 g w n numBits hassign
    have hst2 : st2 = ChipState.mk (some g)
        (regInsert (w, n) (make_mul_aux g w n numBits) st.aux_registry) := by
      rw [assign_aux] at hassign
      injection hassign with h
      exact h.symm
    have hok : get_mul_aux st2 w n =
        Except.ok (MulAux.mk g (make_mul_aux g w n numBits)) := by
      apply get_mul_aux_ok
      · rw [hst2]
      · rw [hst2]
        exact regLookup_insert_self (w, n) _ st.aux_registry
    refine ⟨hok, ?_⟩
    rw [get_mul_aux_call, hok]
    rfl

/-- Witness for C6 at a concrete state. -/
theorem get_mul_aux_spec_witness :
    get_mul_aux (ChipState.mk (none : Option ℤ) []) 2 1 = Except.error EccError.synthesis ∧
    get_mul_aux (ChipState.mk (some (5:ℤ)) []) 2 1 = Except.error EccError.synthesis ∧
    get_mul_aux (ChipState.mk (some (5:ℤ))
        (regInsert (1, 1) (make_mul_aux (5:ℤ) 1 1 2) [])) 1 1 =
      Except.ok (MulAux.mk (5:ℤ) (make_mul_aux (5:ℤ) 1 1 2)) :=
  ⟨get_mul_aux_spec.1 _ 2 1 rfl,
   get_mul_aux_spec.2.1 _ 5 2 1 rfl rfl,
   (get_mul_aux_spec.2.2 (ChipState.mk none []) _ 5 1 1 2 rfl).1⟩

/-- The chip operations that can mutate the `BaseFieldEccChip` state. -/
inductive ChipOp (G : Type) : Type
  | assignAuxGeneratorOp : G → ChipOp G
  | assignAuxOp : ℕ → ℕ → ℕ → ChipOp G

/-- Applies one mutating chip operation: a failing `assign_aux` (missing
generator) returns `Err` without touching the registry, so the state is
unchanged. -/
def applyOp (st : ChipState G) : ChipOp G → ChipState G
  | ChipOp.assignAuxGeneratorOp g => assign_aux_generator st g
  | ChipOp.assignAuxOp numBits w n =>
      match assign_aux numBits st w n with
      | Except.ok st2 => st2
      | Except.error _ => st

/-- Claim C7 (amended): the auxiliary registry never loses an entry - once
a key is present it stays present under every chip operation - and the
value under a key can change only through another `assign_aux` call with
that same key (`BTreeMap::insert` replaces); `assign_aux_generator` and
`assign_aux` with a different key leave the entry untouched. -/
theorem aux_registry_no_removal (st : ChipState G) (op : ChipOp G) (k : ℕ × ℕ) :
    ((regLookup k st.aux_registry).isSome →
      (regLookup k (applyOp st op).aux_registry).isSome) ∧
    (∀ g, op = ChipOp.assignAuxGeneratorOp g →
      regLookup k (applyOp st op).aux_registry = regLookup k st.aux_registry) ∧
    (∀ numBits w n, op = ChipOp.assignAuxOp numBits w n → (w, n) ≠ k →
      regLookup k (applyOp st op).aux_registry = regLookup k st.aux_registry) := by
  cases op with
  | assignAuxGeneratorOp g =>
      refine ⟨fun h => h, fun g2 _ => rfl, ?_⟩
      intro numBits w n hop
      exact absurd hop (by intro h; exact ChipOp.noConfusion h)
  | assignAuxOp numBits w n =>
      have hreg : (applyOp st (ChipOp.assignAuxOp numBits w n)).aux_registry =
            regInsert (w, n) (make_mul_aux (st.aux_generator.getD 0) w n numBits)
              st.aux_registry ∨
          (applyOp st (ChipOp.assignAuxOp numBits w n)).aux_registry = st.aux_registry := by
        cases hgen : st.aux_generator with
        | none =>
            right
            show (match assign_aux numBits st w n with
              | Except.ok st2 => st2
              | Except.error _ => st).aux_registry = st.aux_registry
            rw [assign_aux, hgen]
        | some p =>
            left
            show (match assign_aux numBits st w n with
              | Except.ok st2 => st2
              | Except.error _ => st).aux_registry = _
            rw [assign_aux, hgen]
            rfl
      refine ⟨?_, ?_, ?_⟩
      · intro hsome
        rcases hreg with h | h
        · rw [h]
          by_cases hk : (w, n) = k
          · rw [← hk] at hsome ⊢
            rw [regLookup_insert_self]
            rfl
          · rw [regLookup_insert_other _ hk]
            exact hsome
        · rw [h]
          exact hsome
      · intro g hop
        exact absurd hop (by intro h; exact ChipOp.noConfusion h)
      · intro numBits2 w2 n2 hop hk
        have hw2 : w2 = w ∧ n2 = n := by
          injection hop with h1 h2 h3
          exact ⟨h2.symm, h3.symm⟩
        rcases hreg with h | h
        · rw [h]
          rw [hw2.1, hw2.2] at hk
          exact regLookup_insert_other _ hk _
        · rw [h]

/-- Witness for C7 (amended) at a concrete state. -/
theorem aux_registry_no_removal_witness :
    (regLookup (1, 1) ((applyOp (ChipState.mk (some (1:ℤ)) [((1, 1), (5:ℤ))])
        (ChipOp.assignAuxOp 2 1 1)).aux_registry)).isSome ∧
    regLookup (1, 1) ((applyOp (ChipState.mk (some (1:ℤ)) [((1, 1), (5:ℤ))])
        (ChipOp.assignAuxGeneratorOp 2)).aux_registry) =
      regLookup (1, 1) (ChipState.mk (some (1:ℤ)) [((1, 1), (5:ℤ))]).aux_registry :=
  ⟨(aux_registry_no_removal (ChipState.mk (some (1:ℤ)) [((1, 1), (5:ℤ))])
      (ChipOp.assignAuxOp 2 1 1) (1, 1)).1 (by decide),
   (aux_registry_no_removal (ChipState.mk (some (1:ℤ)) [((1, 1), (5:ℤ))])
      (ChipOp.assignAuxGeneratorOp 2) (1, 1)).2.1 2 rfl⟩

/-- Counterexample to claim C7 as stated: the registry entry for key
`(1, 1)` is first `make_mul_aux 1 1 1 2 = -3` and, after the chip
operations `assign_aux_generator 2` followed by `assign_aux 1 1` (both
legal public chip calls), becomes `make_mul_aux 2 1 1 2 = -6`: the stored
point under an already-inserted key changed, so the registry is not
immutable-once-inserted. -/
theorem aux_registry_overwritten_cex :
    regLookup (1, 1) ((applyOp (applyOp (ChipState.mk (none : Option ℤ) [])
        (ChipOp.assignAuxGeneratorOp 1)) (ChipOp.assignAuxOp 2 1 1)).aux_registry) =
      some (make_mul_aux (1:ℤ) 1 1 2) ∧
    regLookup (1, 1) ((applyOp (applyOp (applyOp (applyOp (ChipState.mk (none : Option ℤ) [])
        (ChipOp.assignAuxGeneratorOp 1)) (ChipOp.assignAuxOp 2 1 1))
        (ChipOp.assignAuxGeneratorOp 2)) (ChipOp.assignAuxOp 2 1 1)).aux_registry) =
      some (make_mul_aux (2:ℤ) 1 1 2) ∧
    make_mul_aux (1:ℤ) 1 1 2 ≠ make_mul_aux (2:ℤ) 1 1 2 := by
  refine ⟨rfl, rfl, ?_⟩
  decide

/-! ### Coordinate-level layer: the incomplete addition's guard and the
point-at-infinity handling -/

namespace Coords

/-- A point of the emulated curve as a pair of foreign-field coordinates
(the limb representation of each coordinate is abstracted to one field
value). -/
structure PointC (F : Type) : Type where
  x : F
  y : F

/-- The constraint the chip's `add` emits before the incomplete formula:
`assert_not_equal` on two foreign-field wires. -/
inductive EmittedConstraint (F : Type) : Type
  | assertNotEqualX : F → F → EmittedConstraint F

/-- Modelled from the spec: §4.2, the body of `_add_incomplete_unsafe`
(outside the provided sources) is the chord formula, undefined (spurious
result, not a caught error) when the x coordinates coincide. -/
def add_incomplete_unsafe {F : Type} [Field F] (p0 p1 : PointC F) : PointC F :=
  let lambda := (p1.y - p0.y) / (p1.x - p0.x)
  let x2 := lambda ^ 2 - p0.x - p1.x
  PointC.mk x2 (lambda * (p0.x - x2) - p0.y)

/-- Embeds `add` (base_field_ecc.rs lines 265-277): first
`assert_not_equal(p0.x, p1.x)` is emitted, then the incomplete formula is
applied.  The result pairs the emitted constraints (in emission order; the
arithmetic constraints of the formula itself are satisfiable by
construction and abstracted away) with the computed point. -/
def add {F : Type} [Field F] (p0 p1 : PointC F) :
    List (EmittedConstraint F) × PointC F :=
  ([EmittedConstraint.assertNotEqualX p0.x p1.x], add_incomplete_unsafe p0 p1)

/-- An `assert_not_equal` constraint is satisfied by a witness when the two
wires hold different values. -/
def constraintHolds {F : Type} [DecidableEq F] : EmittedConstraint F → Bool
  | EmittedConstraint.assertNotEqualX a b => a != b

/-- The emitted constraint system accepts when every constraint holds. -/
def systemAccepts {F : Type} [DecidableEq F] (cs : List (EmittedConstraint F)) : Bool :=
  cs.all constraintHolds

/-- Claim C5: `add(P, Q)` first emits the assertion that the x coordinates
differ - before applying the incomplete formula - and the resulting
constraint system rejects whenever `x_P = x_Q` (covering both `P = Q` and
`P = -Q`, which share an x coordinate) and accepts the guard otherwise. -/
theorem add_asserts_x_ne {F : Type} [Field F] [DecidableEq F] (p0 p1 : PointC F) :
    (Coords.add p0 p1).1.head? =
      some (EmittedConstraint.assertNotEqualX p0.x p1.x) ∧
    (p0.x = p1.x → systemAccepts (Coords.add p0 p1).1 = false) ∧
    (p0.x ≠ p1.x → systemAccepts (Coords.add p0 p1).1 = true) := by
  refine ⟨rfl, ?_, ?_⟩
  · intro heq
    show ((p0.x != p1.x) && true) = false
    rw [bne_eq_false_iff_eq.mpr heq]
    rfl
  · intro hne
    show ((p0.x != p1.x) && true) = true
    rw [bne_iff_ne.mpr hne]
    rfl

/-- Witness for C5 over `ZMod 5`: equal x coordinates are rejected, and
distinct x coordinates pass the guard. -/
theorem add_asserts_x_ne_witness :
    systemAccepts (Coords.add (PointC.mk (1 : ℚ) 2) (PointC.mk 1 3)).1 = false ∧
    systemAccepts (Coords.add (PointC.mk (1 : ℚ) 2) (PointC.mk 2 3)).1 = true :=
  ⟨(add_asserts_x_ne (PointC.mk (1 : ℚ) 2) (PointC.mk 1 3)).2.1 rfl,
   (add_asserts_x_ne (PointC.mk (1 : ℚ) 2) (PointC.mk 2 3)).2.2 (by norm_num)⟩

/-- Embeds `to_rns_point` (base_field_ecc.rs lines 64-73): the external
curve type's `coordinates()` yields `none` exactly for the point at
infinity, and the code calls `unwrap()` on it, so the infinity case is a
panic (process abort), not a returned `Error`. -/
def to_rns_point (F : Type) (coords : Option (F × F)) : Res (PointC F) :=
  match coords with
  | some c => Except.ok (PointC.mk c.1 c.2)
  | none => Except.error EccError.panicked

/-- Embeds `assign_constant` (base_field_ecc.rs lines 123-135): it also
calls `coordinates().unwrap()` directly before assigning the two
coordinates as constants. -/
def assign_constant (F : Type) (coords : Option (F × F)) : Res (PointC F) :=
  match coords with
  | some c => Except.ok (PointC.mk c.1 c.2)
  | none => Except.error EccError.panicked

/-- Claim C8 (amended): in the non-identity variant, supplying the point
at infinity where disallowed (to `assign_constant`, or through
`to_rns_point` for a present witness) aborts synthesis immediately via a
panic (`unwrap` of the absent coordinates), not via a returned error
value; points with present coordinates are accepted. -/
theorem infinity_panics (F : Type) :
    to_rns_point F none = Except.error EccError.panicked ∧
    assign_constant F none = Except.error EccError.panicked ∧
    (∀ c : F × F, assign_constant F (some c) = Except.ok (PointC.mk c.1 c.2)) ∧
    (∀ c : F × F, to_rns_point F (some c) = Except.ok (PointC.mk c.1 c.2)) :=
  ⟨rfl, rfl, fun _ => rfl, fun _ => rfl⟩

/-- Counterexample to claim C8 as stated: at the point at infinity the code
panics (`EccError.panicked`, the embedding of a Rust `unwrap` panic); it
does not surface the condition to the caller as a returned error value
(`Error::Synthesis` is the only error the chip returns for precondition
failures). -/
theorem infinity_returns_no_error_cex :
    assign_constant ℤ none = Except.error EccError.panicked ∧
    assign_constant ℤ none ≠ Except.error EccError.synthesis ∧
    to_rns_point ℤ none = Except.error EccError.panicked ∧
    to_rns_point ℤ none ≠ Except.error EccError.synthesis :=
  ⟨rfl, fun h => EccError.noConfusion (Except.error.inj h),
   rfl, fun h => EccError.noConfusion (Except.error.inj h)⟩

end Coords

/-! ### Public-input exposure -/

/-- An assigned point as the limb cells of its two coordinates. -/
structure PointLimbs (α : Type) : Type where
  x : List α
  y : List α

/-- Embeds `expose_public` (base_field_ecc.rs lines 102-119): walk the x
limbs then the y limbs, constraining each cell to the instance column at
the running offset, which increments by one per limb.  The result is the
list of (instance-slot, limb-cell) pairs in emission order. -/
def expose_public {α : Type} (point : PointLimbs α) (offset : ℕ) : List (ℕ × α) :=
  (point.y.foldl (fun acc limb => (acc.1 ++ [(acc.2, limb)], acc.2 + 1))
    (point.x.foldl (fun acc limb => (acc.1 ++ [(acc.2, limb)], acc.2 + 1))
      ([], offset))).1

/-- The slots a limb list occupies starting at an offset. -/
def slotted {α : Type} (off : ℕ) : List α → List (ℕ × α)
  | [] => []
  | a :: rest => (off, a) :: slotted (off + 1) rest

theorem expose_foldl {α : Type} : ∀ (l : List α) (acc : List (ℕ × α)) (off : ℕ),
    l.foldl (fun acc limb => (acc.1 ++ [(acc.2, limb)], acc.2 + 1)) (acc, off) =
      (acc ++ slotted off l, off + l.length) := by
  intro l
  induction l with
  | nil => intro acc off; simp [slotted]
  | cons a rest ih =>
      intro acc off
      show rest.foldl _ (acc ++ [(off, a)], off + 1) = _
      rw [ih, slotted, List.append_assoc, List.singleton_append]
      have hlen : off + 1 + rest.length = off + (a :: rest).length := by
        rw [List.length_cons]
        omega
      rw [hlen]

theorem slotted_length {α : Type} : ∀ (l : List α) (off : ℕ),
    (slotted off l).length = l.length := by
  intro l
  induction l with
  | nil => intro off; rfl
  | cons a rest ih =>
      intro off
      show (slotted (off + 1) rest).length + 1 = rest.length + 1
      rw [ih]

theorem slotted_get? {α : Type} : ∀ (l : List α) (off i : ℕ),
    (slotted off l).get? i = (l.get? i).map (fun a => (off + i, a)) := by
  intro l
  induction l with
  | nil => intro off i; rfl
  | cons a rest ih =>
      intro off i
      match i with
      | 0 => simp [slotted]
      | i + 1 =>
          show (slotted (off + 1) rest).get? i = _
          rw [ih]
          show _ = (rest.get? i).map (fun a => (off + (i + 1), a))
          have : ∀ b : α, (off + 1 + i, b) = (off + (i + 1), b) := by
            intro b
            congr 1
            omega
          cases rest.get? i with
          | none => rfl
          | some b => simp [this b]

theorem expose_public_eq {α : Type} (point : PointLimbs α) (offset : ℕ) :
    expose_public point offset =
      slotted offset point.x ++ slotted (offset + point.x.length) point.y := by
  rw [expose_public, expose_foldl, expose_foldl]
  rw [List.nil_append]

/-- Claim C9: `expose_public(point, offset)` copies the x-coordinate limb
cells in ascending limb order and then the y-coordinate limb cells in
ascending limb order into consecutive public-instance slots starting at
`offset`: slot `offset + i` holds x limb `i`, and slot `offset + k + i`
holds y limb `i`, where `k` is the number of x limbs. -/
theorem expose_public_layout {α : Type} (point : PointLimbs α) (offset : ℕ) :
    (expose_public point offset).length = point.x.length + point.y.length ∧
    (∀ i v, point.x.get? i = some v →
      (expose_public point offset).get? i = some (offset + i, v)) ∧
    (∀ i v, point.y.get? i = some v →
      (expose_public point offset).get? (point.x.length + i) =
        some (offset + point.x.length + i, v)) := by
  rw [expose_public_eq]
  refine ⟨?_, ?_, ?_⟩
  · rw [List.length_append, slotted_length, slotted_length]
  · intro i v hv
    have hi : i < point.x.length := by
      by_contra hge
      rw [List.get?_eq_getElem?, List.getElem?_eq_none (by omega)] at hv
      exact Option.noConfusion hv
    rw [List.get?_eq_getElem?, List.getElem?_append]
    rw [if_pos (by rw [slotted_length]; exact hi)]
    rw [← List.get?_eq_getElem?, slotted_get?, hv]
    rfl
  · intro i v hv
    rw [List.get?_eq_getElem?, List.getElem?_append]
    rw [if_neg (by rw [slotted_length]; omega)]
    rw [← List.get?_eq_getElem?, slotted_length, slotted_get?]
    have hsub : point.x.length + i - point.x.length = i := by omega
    rw [hsub, hv]
    show some (offset + point.x.length + i, v) = _
    rfl

/-- Witness for C9 at a concrete point and offset. -/
theorem expose_public_layout_witness :
    (expose_public (PointLimbs.mk [10, 11] [20]) 5).length = 3 ∧
    (expose_public (PointLimbs.mk [10, 11] [20]) 5).get? 1 = some (5 + 1, 11) ∧
    (expose_public (PointLimbs.mk [(10:ℕ), 11] [20]) 5).get? (2 + 0) = some (5 + 2 + 0, 20) :=
  ⟨(expose_public_layout (PointLimbs.mk [10, 11] [20]) 5).1,
   (expose_public_layout (PointLimbs.mk [10, 11] [20]) 5).2.1 1 11 rfl,
   (expose_public_layout (PointLimbs.mk [(10:ℕ), 11] [20]) 5).2.2 0 20 rfl⟩

end Halo2Ecc
